import Mathlib

/-!
Shallow embedding of the `aoc-2024` repository (Rust) and verification of the
frozen claims about it.  Machine integers are modelled as `Nat`/`Int`:
`usize` as `Nat`, `isize`/`i64`/`i128` as `Int`.  Fallible code (Rust `Option`,
`Result`, panics) is modelled with `Option`; where a function can both panic
and return `None`, the embedding uses nested options (`none` = panic,
`some none` = Rust `None`).
-/

namespace Aoc

/-! ## `grid.rs` -/

/-- `Position { row_index, col_index }`, unsigned zero-based coordinates. -/
structure Position where
  row_index : Nat
  col_index : Nat
deriving Repr, DecidableEq

/-- `Offset { row_offset, col_offset }`, signed deltas. -/
structure Offset where
  row_offset : Int
  col_offset : Int
deriving Repr, DecidableEq

def Offset.UP : Offset := ⟨-1, 0⟩

def Offset.DOWN : Offset := ⟨1, 0⟩

def Offset.LEFT : Offset := ⟨0, -1⟩

def Offset.RIGHT : Offset := ⟨0, 1⟩

/-- `Offset::unchecked_add`. -/
def Offset.unchecked_add (l r : Offset) : Offset :=
  ⟨l.row_offset + r.row_offset, l.col_offset + r.col_offset⟩

/-- A half-open `usize` range `lo..hi`, the `R = Range<usize>` instantiation of
the `RangeBounds` parameter actually used via `GridSize::into`. -/
structure NatRange where
  lo : Nat
  hi : Nat
deriving Repr, DecidableEq

/-- `Range::contains`. -/
def NatRange.containsN (r : NatRange) (x : Nat) : Bool :=
  r.lo ≤ x && x < r.hi

/-- `Constraints { row_range, col_range }` at `R = Range<usize>`. -/
structure Constraints where
  row_range : NatRange
  col_range : NatRange
deriving Repr, DecidableEq

/-- `GridSize(usize, usize)`; `fst` is field `.0`, `snd` is field `.1`. -/
structure GridSize where
  fst : Nat
  snd : Nat
deriving Repr, DecidableEq

/-- `impl Into<Constraints<Range<usize>>> for GridSize`:
row range `0..self.0`, column range `0..self.1`. -/
def GridSize.toConstraints (s : GridSize) : Constraints :=
  ⟨⟨0, s.fst⟩, ⟨0, s.snd⟩⟩

/-- `usize::checked_add_signed`.  `usize` is modelled as unbounded `Nat`, so
only the underflow check remains; the `usize::MAX` overflow check is dropped,
which is faithful for every use in this repository because every result is
additionally filtered through a range bounded by a `usize` value. -/
def checkedAddSigned (n : Nat) (i : Int) : Option Nat :=
  if 0 ≤ (n : Int) + i then some ((n : Int) + i).toNat else none

/-- `Position::checked_add_offset`: row component first (with early return),
then column component, each filtered by the corresponding range. -/
def Position.checked_add_offset (p : Position) (offset : Offset)
    (constraints : Constraints) : Option Position :=
  match (checkedAddSigned p.row_index offset.row_offset).filter
      (fun ri => constraints.row_range.containsN ri) with
  | none => none
  | some row_index =>
    match (checkedAddSigned p.col_index offset.col_offset).filter
        (fun ci => constraints.col_range.containsN ci) with
    | none => none
    | some col_index => some ⟨row_index, col_index⟩

/-- `Grid<T>(Vec<Vec<T>>)`. -/
def Grid (T : Type) : Type := List (List T)

/-- `Grid::fill_with`.  Note the Rust source destructures
`let GridSize(cols, rows) = grid_size`, i.e. field `.0` is used as the column
count and field `.1` as the row count. -/
def Grid.fill_with {T : Type} (elm : T) (grid_size : GridSize) : Grid T :=
  List.replicate grid_size.snd (List.replicate grid_size.fst elm)

/-- `Grid::size`: `GridSize(rows, cols)` with `cols` read from row 0
(or `0` if there are no rows). -/
def Grid.size {T : Type} (g : Grid T) : GridSize :=
  ⟨List.length g, (List.head? g).map List.length |>.getD 0⟩

/-- `Grid::must_get_cell`; the `unwrap` panics are modelled by `none`. -/
def Grid.must_get_cell {T : Type} (g : Grid T) (position : Position) :
    Option T :=
  (List.get? g position.row_index).bind fun row =>
    List.get? row position.col_index

/-- `Grid::positions`: all positions in row-major order, driven by
`Grid::size`. -/
def Grid.positions {T : Type} (g : Grid T) : List Position :=
  (List.range g.size.fst).flatMap fun row_index =>
    (List.range g.size.snd).map fun col_index => ⟨row_index, col_index⟩

/-! ## `day_13.rs` -/

namespace Day13

structure Button where
  x_offset : Int
  y_offset : Int
deriving Repr, DecidableEq

structure Prize where
  x : Int
  y : Int
deriving Repr, DecidableEq

structure ClawMachine where
  button_a : Button
  button_b : Button
  prize : Prize
deriving Repr, DecidableEq

def i128MAX : Int := 2 ^ 127 - 1

/-- `full_div` built on the `rational` crate: `Rational::new(n, d)` panics when
`d = 0` (modelled by the outer `none`) and otherwise produces the reduced
fraction, whose denominator is `1` exactly when `d ∣ n`, in which case the
numerator is the exact quotient. -/
def full_div (n d : Int) : Option (Option Int) :=
  if d = 0 then none
  else some (if d ∣ n then some (n / d) else none)

/-- `check_and_convert`: membership of `(0..=threshold.unwrap_or(i128::MAX))`
then conversion to `u128`. -/
def check_and_convert (t : Int) (threshold : Option Int) : Option Nat :=
  if 0 ≤ t ∧ t ≤ threshold.getD i128MAX then some t.toNat else none

/-- `press_buttons`; outer `none` is a panic inside `Rational::new`,
`some none` is the Rust `None`. -/
def press_buttons (m : ClawMachine) (threshold : Option Int) :
    Option (Option (Nat × Nat)) :=
  match full_div (m.button_a.y_offset * m.prize.x - m.button_a.x_offset * m.prize.y)
      (m.button_a.y_offset * m.button_b.x_offset -
        m.button_a.x_offset * m.button_b.y_offset) with
  | none => none
  | some none => some none
  | some (some b) =>
    match full_div (m.prize.x - m.button_b.x_offset * b) m.button_a.x_offset with
    | none => none
    | some none => some none
    | some (some a) =>
      some ((check_and_convert a threshold).bind fun av =>
        (check_and_convert b threshold).map fun bv => (av, bv))

/-- `tokens_needed`. -/
def tokens_needed (m : ClawMachine) (threshold : Option Int) :
    Option (Option Nat) :=
  match press_buttons m threshold with
  | none => none
  | some none => some none
  | some (some (a, b)) => some (some (a * 3 + b * 1))

/-- `total_tokens_needed`: `filter_map` + `sum`, with panics propagated. -/
def total_tokens_needed (ms : List ClawMachine) (threshold : Option Int) :
    Option Nat :=
  match ms with
  | [] => some 0
  | m :: rest =>
    match tokens_needed m threshold with
    | none => none
    | some none => total_tokens_needed rest threshold
    | some (some k) => (total_tokens_needed rest threshold).map fun s => k + s

def total_tokens_needed_part_1 (ms : List ClawMachine) : Option Nat :=
  total_tokens_needed ms (some 100)

/-- `make_part_2_input`. -/
def make_part_2_input (input : List ClawMachine) : List ClawMachine :=
  input.map fun m =>
    { m with prize := ⟨m.prize.x + 10000000000000, m.prize.y + 10000000000000⟩ }

def total_tokens_needed_part_2 (ms : List ClawMachine) : Option Nat :=
  total_tokens_needed (make_part_2_input ms) none

/-- The first example machine: buttons A = (94, 34), B = (22, 67),
prize (8400, 5400). -/
def exampleMachine1 : ClawMachine :=
  ⟨⟨94, 34⟩, ⟨22, 67⟩, ⟨8400, 5400⟩⟩

/-- A machine with linearly independent buttons but a zero `x_offset` on
button A: A = (0, 1), B = (1, 0), prize (5, 5). -/
def zeroXAMachine : ClawMachine := ⟨⟨0, 1⟩, ⟨1, 0⟩, ⟨5, 5⟩⟩

end Day13

/-! ## `day_12.rs` -/

namespace Day12

/-- `CurrentRegionCell`. -/
inductive CurrentRegionCell where
  | Outside
  | Edge
  | Inside
deriving Repr, DecidableEq, BEq

/-- `Grid::must_get_mut_cell` followed by assignment; the `unwrap` panics are
modelled by `none`. -/
def setCell {T : Type} (g : Grid T) (p : Position) (v : T) :
    Option (Grid T) :=
  match List.get? g p.row_index with
  | none => none
  | some row =>
    if p.col_index < row.length
    then some (List.set g p.row_index (List.set row p.col_index v))
    else none

/-- The offset array `[UP, DOWN, LEFT, RIGHT]` used by `calculate_total_price`. -/
def offsets4 : List Offset := [Offset.UP, Offset.DOWN, Offset.LEFT, Offset.RIGHT]

/-- One flood-fill `while let Some(position) = next_positions.pop()` loop of
`calculate_total_price`.  The stack is a list whose head is the top (`Vec::pop`
takes from the end, and `extend` appends in iterator order, hence
`.reverse ++`).  The fuel argument only bounds the number of iterations, which
is bounded by the total number of pushes `1 + 4 * rows * cols`; `none` is a
panic (or exhausted fuel, which the fuel chosen below rules out). -/
def floodLoop (grid : Grid Char) (rid : Char) (gs : GridSize) :
    Nat → Grid Bool → Grid CurrentRegionCell → Nat → Nat →
    List Position →
    Option (Grid Bool × Grid CurrentRegionCell × Nat × Nat)
  | 0, _, _, _, _, _ => none
  | _ + 1, visited, creg, area, perim, [] => some (visited, creg, area, perim)
  | fuel + 1, visited, creg, area, perim, position :: rest =>
    match visited.must_get_cell position with
    | none => none
    | some true => floodLoop grid rid gs fuel visited creg area perim rest
    | some false =>
      let cands := offsets4.filterMap fun offset =>
        position.checked_add_offset offset gs.toConstraints
      match cands.mapM (fun np => (grid.must_get_cell np).map fun c => (np, c)) with
      | none => none
      | some pairs =>
        let neighbor_positions := (pairs.filter fun pc => pc.2 == rid).map Prod.fst
        let number_of_neighbors := neighbor_positions.length
        let stack := neighbor_positions.reverse ++ rest
        match setCell creg position
            (if number_of_neighbors < 4
             then CurrentRegionCell.Edge else CurrentRegionCell.Inside) with
        | none => none
        | some creg =>
          match setCell visited position true with
          | none => none
          | some visited =>
            floodLoop grid rid gs fuel visited creg (area + 1)
              (perim + (4 - number_of_neighbors)) stack

/-- `is_not_in_current_region`. -/
def is_not_in_current_region (position : Position) (offset : Offset)
    (grid : Grid CurrentRegionCell) : Option Bool :=
  match position.checked_add_offset offset grid.size.toConstraints with
  | some p => (grid.must_get_cell p).map fun c => c == CurrentRegionCell.Outside
  | none => some true

/-- `is_corner`, with Rust short-circuit `&&` / `||`. -/
def is_corner (edge_position : Position) (offset_1 offset_2 : Offset)
    (grid : Grid CurrentRegionCell) : Option Bool :=
  match is_not_in_current_region edge_position offset_1 grid with
  | none => none
  | some false => some false
  | some true =>
    match is_not_in_current_region edge_position offset_2 grid with
    | none => none
    | some true => some true
    | some false =>
      (is_not_in_current_region edge_position
        (offset_1.unchecked_add offset_2) grid).map fun b => !b

/-- `number_of_corners`. -/
def number_of_corners (edge_position : Position)
    (grid : Grid CurrentRegionCell) : Option Nat :=
  ([(Offset.LEFT, Offset.UP), (Offset.UP, Offset.RIGHT),
    (Offset.RIGHT, Offset.DOWN), (Offset.DOWN, Offset.LEFT)].mapM
      (fun pr => is_corner edge_position pr.1 pr.2 grid)).map
    fun bs => (bs.filter id).length

/-- The corner summation over `current_region.positions()` filtered to `Edge`
cells.  `current_region` is always built by `fill_with`, hence rectangular, so
the `must_get_cell` in the filter cannot panic there. -/
def cornersSum (creg : Grid CurrentRegionCell) : Option Nat :=
  ((creg.positions.filter fun p =>
      creg.must_get_cell p == some CurrentRegionCell.Edge).mapM
    (fun p => number_of_corners p creg)).map List.sum

/-- The `for position in grid.positions()` loop of `calculate_total_price`. -/
def priceLoop (grid : Grid Char) (gs : GridSize) :
    List Position → Grid Bool → Nat → Nat → Option (Nat × Nat)
  | [], _, p1, p2 => some (p1, p2)
  | position :: rest, visited, p1, p2 =>
    match grid.must_get_cell position with
    | none => none
    | some rid =>
      match floodLoop grid rid gs (5 * (gs.fst * gs.snd) + 5) visited
          (Grid.fill_with CurrentRegionCell.Outside gs) 0 0 [position] with
      | none => none
      | some (visited, creg, area, perimeter) =>
        match cornersSum creg with
        | none => none
        | some corners =>
          priceLoop grid gs rest visited (p1 + area * perimeter)
            (p2 + area * corners)

/-- `calculate_total_price`; `none` is a panic. -/
def calculate_total_price (grid : Grid Char) : Option (Nat × Nat) :=
  let grid_size := grid.size
  priceLoop grid grid_size grid.positions (Grid.fill_with false grid_size) 0 0

end Day12

/-! ## `day_9.rs` (part 1) -/

namespace Day9

/-- `Block`. -/
inductive Block where
  | Free
  | File (id : Nat)
deriving Repr, DecidableEq

/-- `l_iter.find(|idx| blocks[*idx] == Block::Free)`: the forward iterator has
already consumed indices below `start`, so this is the first index at or after
`start` holding `Free`. -/
def findFree (blocks : List Block) (start : Nat) : Option Nat :=
  ((blocks.drop start).findIdx? fun b => b == Block.Free).map (· + start)

/-- `r_iter.find(|idx| blocks[*idx] != Block::Free)`: the backward iterator
will next yield `rlim - 1, rlim - 2, ..., 0`, so this is the largest index
below `rlim` holding a non-`Free` block. -/
def findFileDesc (blocks : List Block) : Nat → Option Nat
  | 0 => none
  | k + 1 =>
    if blocks.getD k Block.Free ≠ Block.Free then some k
    else findFileDesc blocks k

/-- `Vec::swap`; the indices are in bounds at every use. -/
def swapAt (blocks : List Block) (i j : Nat) : List Block :=
  (blocks.set i (blocks.getD j Block.Free)).set j (blocks.getD i Block.Free)

/-- The `loop` of `part_1::compact_disk`, with the persistent forward and
backward iterators represented by the cursor `lpos` (next forward candidate)
and the bound `rlim` (the backward iterator will next yield `rlim - 1`). -/
def compactLoop (blocks : List Block) (lpos rlim : Nat) : List Block :=
  match findFree blocks lpos, h2 : findFileDesc blocks rlim with
  | some l, some r =>
    if l < r then compactLoop (swapAt blocks l r) (l + 1) r else blocks
  | some _, none => blocks
  | none, _ => blocks
termination_by rlim
decreasing_by
  have key : ∀ (bs : List Block) (k r : Nat), findFileDesc bs k = some r → r < k := by
    intro bs k
    induction k with
    | zero => intro r h; simp [findFileDesc] at h
    | succ n ih =>
      intro r h
      rw [findFileDesc] at h
      split at h
      · cases h; omega
      · exact Nat.lt_succ_of_lt (ih r h)
  exact key _ _ _ h2

/-- `part_1::compact_disk`. -/
def compact_disk (blocks : List Block) : List Block :=
  if blocks.isEmpty then [] else compactLoop blocks 0 blocks.length

end Day9

/-! ## `day_11.rs` -/

namespace Day11

/-- The digit-counting loop at the top of `next_nums`: `digits` starts at `1`
and is incremented while `num / 10^digits > 0`. -/
def digitsLoop (num : Nat) (d : Nat) : Nat :=
  if num / 10 ^ d > 0 then digitsLoop num (d + 1) else d
termination_by num + 1 - 10 ^ d
decreasing_by
  rename_i h
  have h1 : 10 ^ d ≤ num := by
    by_contra hc
    push_neg at hc
    rw [Nat.div_eq_of_lt hc] at h
    exact Nat.lt_irrefl 0 h
  have h2 : 10 ^ d < 10 ^ (d + 1) := Nat.pow_lt_pow_succ (by omega)
  omega

/-- `next_nums`. -/
def next_nums (num : Nat) : List Nat :=
  let digits := digitsLoop num 1
  if num = 0 then [1]
  else if digits % 2 = 0 then
    let d := 10 ^ (digits / 2)
    [num / d, num % d]
  else [num * 2024]

/-- The memo table `HashMap<usize, HashMap<u64, usize>>`, modelled as a
first-match association list of association lists (`insert` shadows). -/
def Memo : Type := List (Nat × List (Nat × Nat))

def memoLookup (memo : Memo) (depth num : Nat) : Option Nat :=
  (List.lookup depth memo).bind fun inner => List.lookup num inner

def memoInsert (memo : Memo) (depth num count : Nat) : Memo :=
  (depth, (num, count) :: (List.lookup depth memo).getD []) :: memo

/-- `blink_num_n_times`, with the memo handle threaded through the
`next_nums(num).into_iter().map(...).sum()` as a left fold. -/
def blink_num_n_times (num : Nat) : Nat → Memo → Nat × Memo
  | 0, memo => (1, memo)
  | d + 1, memo =>
    match memoLookup memo (d + 1) num with
    | some count => (count, memo)
    | none =>
      let res := (next_nums num).foldl
        (fun acc n =>
          let r := blink_num_n_times n d acc.2
          (acc.1 + r.1, r.2))
        (0, memo)
      (res.1, memoInsert res.2 (d + 1) num res.1)

/-- `blink_n_times`: the shared memo is threaded through the
`nums.iter().map(...).sum()` as a left fold starting from the empty table. -/
def blink_n_times (nums : List Nat) (n : Nat) : Nat :=
  (nums.foldl
    (fun acc num =>
      let r := blink_num_n_times num n acc.2
      (acc.1 + r.1, r.2))
    (0, ([] : Memo))).1

/-- The naive unmemoized reference of the claim: expand a list for `n` rounds
under the rule of `next_nums` (each round replaces every number by its
successors). -/
def naiveExpandRounds : Nat → List Nat → List Nat
  | 0, xs => xs
  | n + 1, xs => naiveExpandRounds n (xs.flatMap next_nums)

/-- Per-number reference count, `naiveCount num d = number of values obtained
from `num` after `d` rounds of `next_nums` expansion. -/
def naiveCount (num : Nat) : Nat → Nat
  | 0 => 1
  | d + 1 => ((next_nums num).map fun n => naiveCount n d).sum

/-- All entries of the memo table are correct. -/
def MemoOk (memo : Memo) : Prop :=
  ∀ d num c, memoLookup memo d num = some c → c = naiveCount num d

end Day11

/-! ## `day_1.rs` -/

namespace Day1

def I64_MIN : Int := -(2 ^ 63)

def I64_MAX : Int := 2 ^ 63 - 1

/-- The digit-accumulation phase of `nom::character::complete::i64`:
consume decimal digits greedily. -/
def parseDigitsAcc (acc : Nat) : List Char → Nat × List Char
  | [] => (acc, [])
  | c :: cs =>
    if c.isDigit then parseDigitsAcc (acc * 10 + (c.toNat - 48)) cs
    else (acc, c :: cs)

/-- `nom::character::complete::i64`: an optional sign, at least one digit,
overall value required to fit in `i64` (nom errors out on overflow). -/
def parse_i64 (input : List Char) : Option (Int × List Char) :=
  let signed : Int × List Char :=
    match input with
    | c :: r =>
      if c = '+' then (1, r) else if c = '-' then (-1, r) else (1, c :: r)
    | [] => (1, [])
  match signed.2 with
  | [] => none
  | c :: cs =>
    if c.isDigit then
      let d := parseDigitsAcc (c.toNat - 48) cs
      let v : Int := signed.1 * d.1
      if I64_MIN ≤ v ∧ v ≤ I64_MAX then some (v, d.2) else none
    else none

def isSpaceChar (c : Char) : Bool := c = ' ' || c = '\t'

/-- `nom::character::complete::space1`: one or more spaces or tabs. -/
def space1 (input : List Char) : Option (List Char) :=
  match input with
  | c :: cs => if isSpaceChar c then some (cs.dropWhile isSpaceChar) else none
  | [] => none

/-- `nom::character::complete::newline`. -/
def parse_newline (input : List Char) : Option (List Char) :=
  match input with
  | c :: cs => if c = '\n' then some cs else none
  | [] => none

/-- `line()`: `separated_pair(i64, space1, i64)`. -/
def parse_line (input : List Char) : Option ((Int × Int) × List Char) :=
  (parse_i64 input).bind fun a =>
    (space1 a.2).bind fun r2 =>
      (parse_i64 r2).map fun b => ((a.1, b.1), b.2)

/-- The repetition phase of `separated_list1(newline, line())`: repeatedly try
separator-then-element, backtracking (returning the input as rest) as soon as
either fails.  Each iteration consumes at least the newline, so the fuel
`input.length + 1` used below is never exhausted. -/
def parse_pairs_loop (fuel : Nat) (acc : List (Int × Int)) (input : List Char) :
    List (Int × Int) × List Char :=
  match fuel with
  | 0 => (acc, input)
  | fuel + 1 =>
    match parse_newline input with
    | none => (acc, input)
    | some r1 =>
      match parse_line r1 with
      | none => (acc, input)
      | some (p, r2) => parse_pairs_loop fuel (acc ++ [p]) r2

/-- `parser::input()`: `separated_list1(newline, line()).map(unzip)`. -/
def parser_input (input : List Char) :
    Option ((List Int × List Int) × List Char) :=
  match parse_line input with
  | none => none
  | some (p, r) =>
    let l := parse_pairs_loop (r.length + 1) [p] r
    some (l.1.unzip, l.2)

/-- `solution::total_distance`: both lists sorted ascending then reversed,
zipped, absolute differences summed. -/
def total_distance (left_list right_list : List Int) : Int :=
  ((((left_list.mergeSort fun a b => a ≤ b).reverse).zip
      ((right_list.mergeSort fun a b => a ≤ b).reverse)).map
    fun p => |p.1 - p.2|).sum

/-- `solution::similarity_score`: frequency map of the right list, then
`sum(num * freq(num))` over the left list. -/
def similarity_score (left_list right_list : List Int) : Int :=
  (left_list.map fun num => num * (right_list.count num : Int)).sum

structure Answer where
  part_1 : Int
  part_2 : Int
deriving Repr, DecidableEq

/-- `day_1::solution`: parse, ignore the unconsumed rest, and compute both
answers from the parsed prefix. -/
def solution (input : List Char) : Option Answer :=
  (parser_input input).map fun r =>
    ⟨total_distance r.1.1 r.1.2, similarity_score r.1.1 r.1.2⟩

/-- Spec-side canonical rendering of a pair list as a newline-separated list
of space-separated signed decimal integers: defines the theorem's notion of
an input that begins with a valid pair list. -/
def digitChar (d : Nat) : Char :=
  match d with
  | 0 => '0'
  | 1 => '1'
  | 2 => '2'
  | 3 => '3'
  | 4 => '4'
  | 5 => '5'
  | 6 => '6'
  | 7 => '7'
  | 8 => '8'
  | _ => '9'

def natDigitsChars (n : Nat) : List Char :=
  if h : n = 0 then []
  else digitChar (n % 10) :: natDigitsChars (n / 10)
decreasing_by exact Nat.div_lt_self (Nat.pos_of_ne_zero h) (by omega)

def renderNat (n : Nat) : List Char :=
  if n = 0 then ['0'] else (natDigitsChars n).reverse

def renderInt (v : Int) : List Char :=
  if v < 0 then '-' :: renderNat v.natAbs else renderNat v.natAbs

def renderPair (p : Int × Int) : List Char :=
  renderInt p.1 ++ [' '] ++ renderInt p.2

def renderTail (ps : List (Int × Int)) : List Char :=
  match ps with
  | [] => []
  | p :: rest => '\n' :: renderPair p ++ renderTail rest

def renderPairs (ps : List (Int × Int)) : List Char :=
  match ps with
  | [] => []
  | p :: rest => renderPair p ++ renderTail rest

/-- The digit-accumulation step of `parseDigitsAcc`. -/
def foldDigit (a : Nat) (c : Char) : Nat := a * 10 + (c.toNat - 48)

end Day1



/-- Modelled from the spec: `Offset::dot` is called by day 16's
`turning_penalty` but its definition is not among the provided grid sources;
the spec fixes the intended behavior ("turning costs 1000 (perpendicular) or
2000 (reversal), moving forward costs 1"), which for the unit direction
vectors used is the standard dot product of the (row, col) offset vectors. -/
def Offset.dot (l r : Offset) : Int :=
  l.row_offset * r.row_offset + l.col_offset * r.col_offset

namespace Day16

inductive Cell where
  | Air
  | Wall
deriving Repr, DecidableEq

structure Input where
  starting_position : Position
  ending_position : Position
  grid : Grid Cell

/-- `turning_penalty`; the catch-all `panic!()` arm is `none`. -/
def turning_penalty (current_direction next_direction : Offset) : Option Nat :=
  if current_direction.dot next_direction = 0 then some 1000
  else if current_direction.dot next_direction = -1 then some 2000
  else if current_direction.dot next_direction = 1 then some 0
  else none

def offsets16 : List Offset := [Offset.UP, Offset.DOWN, Offset.LEFT, Offset.RIGHT]

def visitedGet (m : List (Position × Nat)) (p : Position) : Option Nat :=
  List.lookup p m

def visitedInsert (m : List (Position × Nat)) (p : Position) (v : Nat) :
    List (Position × Nat) :=
  (p, v) :: m

/-- The `while let Some(...) = next_positions.pop()` loop of
`calaculate_lowest_score`.  The stack is a list whose head is the top
(`Vec::pop` pops from the end and `extend` appends in iterator order, hence
`.reverse ++`).  `none` is a panic (from `must_get_cell` or
`turning_penalty`) or exhausted fuel; the fuel only bounds the iteration
count. -/
def d16go (input : Input) (gs : GridSize) :
    Nat → List (Position × Offset × Nat) → List (Position × Nat) →
    Option (List (Position × Nat))
  | 0, _, _ => none
  | _ + 1, [], visited => some visited
  | fuel + 1, (position, current_direction, score) :: rest, visited =>
    let skip :=
      match visitedGet visited position with
      | some last_known_score => decide (last_known_score < score)
      | none => false
    if skip then d16go input gs fuel rest visited
    else
      let visited := visitedInsert visited position score
      match offsets16.mapM (fun offset =>
        match position.checked_add_offset offset gs.toConstraints with
        | none => some none
        | some next_position =>
          match input.grid.must_get_cell next_position with
          | none => none
          | some cell =>
            match turning_penalty current_direction offset with
            | none => none
            | some pen =>
              if cell = Cell.Air
              then some (some (next_position, offset, score + 1 + pen))
              else some (none : Option (Position × Offset × Nat))) with
      | none => none
      | some entries =>
        d16go input gs fuel ((entries.filterMap id).reverse ++ rest) visited

/-- `calaculate_lowest_score` (sic), parameterized by loop fuel. -/
def calaculate_lowest_score (input : Input) (fuel : Nat) : Option (Option Nat) :=
  let grid_size := input.grid.size
  let next_positions :=
    (offsets16.map fun offset => (input.starting_position, offset, 0)).reverse
  (d16go input grid_size fuel next_positions []).map fun visited =>
    visitedGet visited input.ending_position

/-- Cost of following a concrete direction sequence from a position: each step
must stay in bounds on an `Air` cell, and costs `1 + turning_penalty`; the
first step is penalized against the freely chosen initial direction, exactly
as in the search's initial stack entries. -/
def pathCost (input : Input) (gs : GridSize) :
    Position → Offset → List Offset → Nat → Option (Position × Nat)
  | p, _, [], acc => some (p, acc)
  | p, dir, o :: os, acc =>
    match p.checked_add_offset o gs.toConstraints with
    | none => none
    | some np =>
      if input.grid.must_get_cell np = some Cell.Air then
        match turning_penalty dir o with
        | some pen => pathCost input gs np o os (acc + 1 + pen)
        | none => none
      else none

def W : Cell := Cell.Wall
def A : Cell := Cell.Air

/-- An 8x8 maze: start S at (5,1), end E at (1,5). -/
def maze16 : Input :=
  { starting_position := ⟨5, 1⟩
    ending_position := ⟨1, 5⟩
    grid :=
      [[W, W, W, W, W, W, W, W],
       [W, W, W, W, W, A, W, W],
       [W, W, W, W, W, A, W, W],
       [W, W, W, A, A, A, W, W],
       [W, W, W, A, W, A, W, W],
       [W, A, A, A, W, A, W, W],
       [W, A, A, A, A, A, W, W],
       [W, W, W, W, W, W, W, W]] }

def bPath : List Offset :=
  [Offset.DOWN, Offset.RIGHT, Offset.RIGHT, Offset.RIGHT, Offset.RIGHT,
   Offset.UP, Offset.UP, Offset.UP, Offset.UP, Offset.UP]

end Day16

/-! ## `day_5.rs` -/

namespace Day5

/-- `Input { page_ordering_rules, updates }`. -/
structure Input where
  page_ordering_rules : List (Int × Int)
  updates : List (List Int)

/-- The accumulated-disallowed check of `is_valid_update`, iterating over the
update while growing the union of `disallowed_in_suffix_map` entries; the map
entry for `page` is the set of left components of rules whose right component
is `page`. -/
def isValidGo (rules : List (Int × Int)) :
    List Int → List Int → Bool
  | _, [] => true
  | all_disallowed, page :: rest =>
    if page ∈ all_disallowed then false
    else
      isValidGo rules
        (all_disallowed ++
          rules.filterMap fun rl => if rl.2 = page then some rl.1 else none)
        rest

def is_valid_update (rules : List (Int × Int)) (update : List Int) : Bool :=
  isValidGo rules [] update

/-- `Graph { edges: HashMap<i64, HashSet<i64>> }`, modelled as an association
list from vertices to duplicate-free destination lists. -/
def Graph : Type := List (Int × List Int)

/-- In-place association-list update, inserting the key at the end when
absent (a deterministic stand-in for `HashMap::entry().or_default()`). -/
def updateAssoc (g : Graph) (k : Int) (f : List Int → List Int) : Graph :=
  match g with
  | [] => [(k, f [])]
  | (k2, v) :: rest =>
    if k2 = k then (k2, f v) :: rest else (k2, v) :: updateAssoc rest k f

/-- `HashSet::insert` on a destination list. -/
def insertDest (v : Int) (vs : List Int) : List Int :=
  if v ∈ vs then vs else vs ++ [v]

/-- `Graph::add_edge`: record the edge and make sure the destination vertex
has an (possibly empty) entry. -/
def add_edge (g : Graph) (src dest : Int) : Graph :=
  updateAssoc (updateAssoc g src (insertDest dest)) dest id

/-- `Graph::with_edges`. -/
def with_edges (edges : List (Int × Int)) : Graph :=
  edges.foldl (fun acc e => add_edge acc e.1 e.2) []

/-- `Graph::has_edge`. -/
def has_edge (g : Graph) (src dest : Int) : Bool :=
  match List.lookup src g with
  | some dest_vertices => dest ∈ dest_vertices
  | none => false

/-- `Graph::vertices` (the key set). -/
def vertices (g : Graph) : List Int := g.map Prod.fst

/-- `SubgraphView`. -/
structure SubgraphView where
  graph : Graph
  vertices_subset : List Int

/-- `Graph::subgraph_with_vertices_subset`: the given subset intersected with
the vertex set. -/
def subgraph_with_vertices_subset (g : Graph) (subset : List Int) :
    SubgraphView :=
  ⟨g, subset.filter fun v => v ∈ vertices g⟩

mutual

/-- `SubgraphView::visit`.  State is `(result, marked, tmp_marks)`; `none` is
the cycle signal.  The fuel only bounds the recursion depth, which is itself
bounded by the number of subset vertices not yet temporarily marked, so the
fuel `vertices_subset.length + 1` supplied by `topologically_sort` is never
exhausted. -/
def visit (g : Graph) (subset : List Int) :
    Nat → List Int → List Int → List Int → Int →
    Option (List Int × List Int × List Int)
  | 0, _, _, _, _ => none
  | fuel + 1, result, marked, tmp_marks, vertex =>
    if vertex ∈ marked then some (result, marked, tmp_marks)
    else if vertex ∈ tmp_marks then none
    else
      match visitList g subset fuel result marked (vertex :: tmp_marks)
          (((List.lookup vertex g).getD []).filter fun w => w ∈ subset) with
      | none => none
      | some (result2, marked2, tmp2) =>
        some (result2 ++ [vertex], vertex :: marked2, tmp2)

/-- The `try_for_each` over a vertex's (subset-filtered) destination list. -/
def visitList (g : Graph) (subset : List Int) :
    Nat → List Int → List Int → List Int → List Int →
    Option (List Int × List Int × List Int)
  | _, result, marked, tmp_marks, [] => some (result, marked, tmp_marks)
  | fuel, result, marked, tmp_marks, w :: ws =>
    match visit g subset fuel result marked tmp_marks w with
    | none => none
    | some (result2, marked2, tmp2) =>
      visitList g subset fuel result2 marked2 tmp2 ws

end

/-- The `loop` of `SubgraphView::topologically_sort`: repeatedly pick the
first subset vertex that is not yet marked and run `visit` on it with a fresh
temporary-mark set. -/
def sortLoop (g : Graph) (subset : List Int) :
    Nat → List Int → List Int → Option (List Int × List Int)
  | 0, _, _ => none
  | fuel + 1, result, marked =>
    match subset.find? (fun v => decide (¬ v ∈ marked)) with
    | none => some (result, marked)
    | some v =>
      match visit g subset (subset.length + 1) result marked [] v with
      | none => none
      | some (result2, marked2, _) => sortLoop g subset fuel result2 marked2

/-- `SubgraphView::topologically_sort`. -/
def topologically_sort (sg : SubgraphView) : Option (List Int) :=
  (sortLoop sg.graph sg.vertices_subset (sg.vertices_subset.length + 1) []
    []).map fun st => st.1.reverse

/-- `SubgraphView::hamiltonian_path`: the topological order, validated so
that every consecutive pair has a direct edge. -/
def hamiltonian_path (sg : SubgraphView) : Option (List Int) :=
  (topologically_sort sg).bind fun t =>
    if (t.zip (t.drop 1)).all fun pr => has_edge sg.graph pr.1 pr.2
    then some t else none

/-- `fix_update`: the update's elements as a set (`HashSet` collect, modelled
as duplicate removal keeping first occurrences). -/
def fix_update (rules_graph : Graph) (update : List Int) : Option (List Int) :=
  hamiltonian_path (subgraph_with_vertices_subset rules_graph update.eraseDups)

/-- `middle_page_number`; the index is in bounds for the nonempty updates
produced by the parser. -/
def middle_page_number (update : List Int) : Int :=
  update.getD (update.length / 2) 0

/-- One `filter_map` step of the day-5 sum: skip valid updates, fix invalid
ones, and propagate the `panic!("INVALID RULE SET")` signal `none`. -/
def sumStep (rules : List (Int × Int)) (rules_graph : Graph)
    (acc : Option Int) (update : List Int) : Option Int :=
  match acc with
  | none => none
  | some s =>
    if is_valid_update rules update then some s
    else
      match fix_update rules_graph update with
      | none => none
      | some fixed_update => some (s + middle_page_number fixed_update)

/-- `sum_of_middle_page_numbers_of_fixed_invalid_updates`; `none` is the
`panic!("INVALID RULE SET")`. -/
def sum_of_middle_page_numbers_of_fixed_invalid_updates (input : Input) :
    Option Int :=
  input.updates.foldl
    (sumStep input.page_ordering_rules (with_edges input.page_ordering_rules))
    (some 0)

/-- The edge relation of the restricted subgraph. -/
def subE (g : Graph) (subset : List Int) (u w : Int) : Prop :=
  has_edge g u w = true ∧ u ∈ subset ∧ w ∈ subset

/-- The restricted subgraph has a (nonempty) cycle. -/
def Cyclic (g : Graph) (subset : List Int) : Prop :=
  ∃ v, Relation.TransGen (subE g subset) v v


/-- All indices of `result` only have restricted-subgraph successors that
appear strictly earlier (the post-order accumulator is reverse-topological). -/
def Ordered (g : Graph) (subset : List Int) (result : List Int) : Prop :=
  ∀ i (hi : i < result.length) w,
    subE g subset (result.get ⟨i, hi⟩) w → w ∈ result.take i

/-- The shared invariant of the DFS state: `result` enumerates `marked`
without duplicates, marked vertices lie in the subset, are closed under
restricted successors, and `result` is reverse-topologically ordered. -/
def Inv (g : Graph) (subset : List Int) (result marked : List Int) : Prop :=
  marked.Nodup ∧ result.Nodup ∧ (∀ x, x ∈ result ↔ x ∈ marked) ∧
    (∀ u ∈ marked, u ∈ subset) ∧
    (∀ u ∈ marked, ∀ w, subE g subset u w → w ∈ marked) ∧
    Ordered g subset result

/-- Number of subset vertices not yet temporarily marked; bounds the
remaining recursion depth of `visit`. -/
def unTmp (subset tmp : List Int) : Nat :=
  (subset.filter fun v => decide (¬ v ∈ tmp)).length

/-- Every unmarked temporarily marked vertex reaches `v` in the restricted
subgraph: the precondition of `visit` that turns the temporary-mark check
into a genuine cycle. -/
def TmpReach (g : Graph) (subset marked tmp : List Int) (v : Int) : Prop :=
  ∀ u ∈ tmp, u ∉ marked → Relation.TransGen (subE g subset) u v

/-- The common postcondition of a successful `visit`/`visitList` step on the
state `st = (result, marked, tmp_marks)`: the invariant is maintained,
`marked` and `tmp_marks` only grow, `result` grows by appending, every new
temporary mark ends up marked, and previously unmarked temporary marks stay
unmarked. -/
def StepPost (g : Graph) (subset result marked tmp : List Int)
    (st : List Int × List Int × List Int) : Prop :=
  Inv g subset st.1 st.2.1 ∧
    (∀ x ∈ marked, x ∈ st.2.1) ∧
    (∃ rs, st.1 = result ++ rs) ∧
    (∀ x ∈ st.2.2, x ∈ tmp ∨ x ∈ st.2.1) ∧
    (∀ x ∈ tmp, x ∈ st.2.2) ∧
    (∀ x ∈ tmp, x ∉ marked → x ∉ st.2.1)

/-- Total correctness of `visit` at a given fuel: with the invariant, enough
fuel, and reachability of `v` from the unmarked temporary marks, `none`
certifies a cycle and `some` satisfies `StepPost` with `v` marked. -/
def VisitFact (g : Graph) (subset : List Int) (fuel : Nat) : Prop :=
  ∀ result marked tmp v,
    Inv g subset result marked → v ∈ subset →
    TmpReach g subset marked tmp v →
    unTmp subset tmp + 1 ≤ fuel →
    (visit g subset fuel result marked tmp v = none → Cyclic g subset) ∧
    ∀ st, visit g subset fuel result marked tmp v = some st →
      StepPost g subset result marked tmp st ∧ v ∈ st.2.1

/-- Total correctness of `visitList` at a given fuel, analogous to
`VisitFact`, with every listed vertex marked on success. -/
def ListFact (g : Graph) (subset : List Int) (fuel : Nat) : Prop :=
  ∀ result marked tmp ws,
    Inv g subset result marked →
    (∀ w ∈ ws, w ∈ subset) →
    (∀ u ∈ tmp, u ∉ marked → ∀ w ∈ ws,
      Relation.TransGen (subE g subset) u w) →
    unTmp subset tmp + 1 ≤ fuel →
    (visitList g subset fuel result marked tmp ws = none →
      Cyclic g subset) ∧
    ∀ st, visitList g subset fuel result marked tmp ws = some st →
      StepPost g subset result marked tmp st ∧ ∀ w ∈ ws, w ∈ st.2.1

/-- The conjunction of claimed properties of `hamiltonian_path` over the
subgraph view `⟨g, subset⟩` (for a duplicate-free `subset`, as the `HashSet`
representation guarantees): it succeeds exactly when the computed topological
order exists and is consecutive-edge connected, the topological order exists
exactly when the restricted subgraph is acyclic, a successful result
enumerates the subset exactly once in an order consistent with every
restricted edge, and an invalid update whose subgraph admits no Hamiltonian
path is fatal to the day-5 sum. -/
def HamSpec (g : Graph) (subset : List Int) : Prop :=
  (∀ t, hamiltonian_path ⟨g, subset⟩ = some t ↔
      (¬ Cyclic g subset ∧ topologically_sort ⟨g, subset⟩ = some t ∧
        (t.zip (t.drop 1)).all (fun pr => has_edge g pr.1 pr.2) = true)) ∧
  ((∃ t, topologically_sort ⟨g, subset⟩ = some t) ↔ ¬ Cyclic g subset) ∧
  (∀ t, hamiltonian_path ⟨g, subset⟩ = some t →
      t.Perm subset ∧
      ∀ i j (hi : i < t.length) (hj : j < t.length),
        subE g subset (t.get ⟨i, hi⟩) (t.get ⟨j, hj⟩) → i < j) ∧
  (∀ (input : Input) (u : List Int), u ∈ input.updates →
      is_valid_update input.page_ordering_rules u = false →
      fix_update (with_edges input.page_ordering_rules) u = none →
      sum_of_middle_page_numbers_of_fixed_invalid_updates input = none)

end Day5

end Aoc
/-! ## Theorems -/

open Aoc

theorem filter_checkedAddSigned (n : Nat) (i : Int) (hi : Nat) :
    (checkedAddSigned n i).filter (fun x => NatRange.containsN ⟨0, hi⟩ x) =
      if 0 ≤ (n : Int) + i ∧ (n : Int) + i < (hi : Int)
      then some ((n : Int) + i).toNat else none := by
  unfold checkedAddSigned NatRange.containsN
  by_cases h1 : 0 ≤ (n : Int) + i
  · rw [if_pos h1, Option.filter_some]
    by_cases h2 : (n : Int) + i < (hi : Int)
    · have hc : 0 ≤ (n : Int) + i ∧ (n : Int) + i < (hi : Int) := And.intro h1 h2
      rw [if_pos hc]
      have hb : (decide (0 ≤ ((n : Int) + i).toNat) &&
          decide (((n : Int) + i).toNat < hi)) = true := by
        simp only [Bool.and_eq_true, decide_eq_true_eq]
        omega
      simp only [hb, if_true]
    · have hc : ¬ (0 ≤ (n : Int) + i ∧ (n : Int) + i < (hi : Int)) := fun h => h2 h.2
      rw [if_neg hc]
      have hb : (decide (0 ≤ ((n : Int) + i).toNat) &&
          decide (((n : Int) + i).toNat < hi)) = false := by
        simp only [Bool.and_eq_false_iff, decide_eq_false_iff_not]
        omega
      simp only [hb, Bool.false_eq_true, if_false]
  · have hc : ¬ (0 ≤ (n : Int) + i ∧ (n : Int) + i < (hi : Int)) := fun h => h1 h.1
    rw [if_neg h1, Option.filter_none, if_neg hc]

theorem checked_add_offset_spec (p : Position) (o : Offset) (a b : Nat) :
    p.checked_add_offset o (GridSize.mk a b).toConstraints =
      (if 0 ≤ (p.row_index : Int) + o.row_offset ∧ (p.row_index : Int) + o.row_offset < (a : Int)
          ∧ 0 ≤ (p.col_index : Int) + o.col_offset ∧ (p.col_index : Int) + o.col_offset < (b : Int)
        then some ⟨((p.row_index : Int) + o.row_offset).toNat,
          ((p.col_index : Int) + o.col_offset).toNat⟩
        else none) := by
  unfold Position.checked_add_offset GridSize.toConstraints
  rw [filter_checkedAddSigned, filter_checkedAddSigned]
  by_cases h1 : 0 ≤ (p.row_index : Int) + o.row_offset ∧
      (p.row_index : Int) + o.row_offset < (a : Int)
  · rw [if_pos h1]
    by_cases h2 : 0 ≤ (p.col_index : Int) + o.col_offset ∧
        (p.col_index : Int) + o.col_offset < (b : Int)
    · have hc : 0 ≤ (p.row_index : Int) + o.row_offset ∧
          (p.row_index : Int) + o.row_offset < (a : Int) ∧
          0 ≤ (p.col_index : Int) + o.col_offset ∧
          (p.col_index : Int) + o.col_offset < (b : Int) :=
        ⟨h1.1, h1.2, h2.1, h2.2⟩
      rw [if_pos h2, if_pos hc]
    · have hc : ¬ (0 ≤ (p.row_index : Int) + o.row_offset ∧
          (p.row_index : Int) + o.row_offset < (a : Int) ∧
          0 ≤ (p.col_index : Int) + o.col_offset ∧
          (p.col_index : Int) + o.col_offset < (b : Int)) :=
        fun h => h2 ⟨h.2.2.1, h.2.2.2⟩
      rw [if_neg h2, if_neg hc]
  · have hc : ¬ (0 ≤ (p.row_index : Int) + o.row_offset ∧
        (p.row_index : Int) + o.row_offset < (a : Int) ∧
        0 ≤ (p.col_index : Int) + o.col_offset ∧
        (p.col_index : Int) + o.col_offset < (b : Int)) :=
      fun h => h1 ⟨h.1, h.2.1⟩
    rw [if_neg h1, if_neg hc]

theorem fill_with_size_transposed :
    (Grid.fill_with false (GridSize.mk 1 2)).size = GridSize.mk 2 1 ∧
      GridSize.mk 2 1 ≠ GridSize.mk 1 2 ∧
      (∀ (T : Type) (e : T) (a b : Nat),
        (Grid.fill_with e (GridSize.mk a b)).size =
          GridSize.mk b (if b = 0 then 0 else a)) := by
  refine ⟨by decide, by decide, ?_⟩
  intro T e a b
  unfold Grid.fill_with Grid.size
  cases b with
  | zero => simp [List.replicate]
  | succ k => simp [List.replicate]

open Aoc.Day13

theorem day13_machine1_part2_not_459236326669 :
    total_tokens_needed_part_2 [exampleMachine1] = some 0 ∧
      (some 0 : Option Nat) ≠ some 459236326669 := by
  constructor
  · decide
  · decide

theorem day13_machine1_tokens :
    total_tokens_needed_part_1 [exampleMachine1] = some 280 ∧
      total_tokens_needed_part_2 [exampleMachine1] = some 0 := by
  constructor
  · decide
  · decide

theorem press_buttons_panics_on_zero_x_offset :
    press_buttons zeroXAMachine (some 100) = none ∧
      zeroXAMachine.button_a.y_offset * zeroXAMachine.button_b.x_offset -
        zeroXAMachine.button_a.x_offset * zeroXAMachine.button_b.y_offset ≠ 0 ∧
      (5 : Int) * zeroXAMachine.button_a.x_offset +
        5 * zeroXAMachine.button_b.x_offset = zeroXAMachine.prize.x ∧
      (5 : Int) * zeroXAMachine.button_a.y_offset +
        5 * zeroXAMachine.button_b.y_offset = zeroXAMachine.prize.y ∧
      (0 : Int) ≤ 5 ∧ (5 : Int) ≤ 100 := by
  refine ⟨by decide, by decide, by decide, by decide, by decide, by decide⟩

theorem press_buttons_char (m : ClawMachine) (threshold : Option Int)
    (hdet : m.button_a.y_offset * m.button_b.x_offset -
      m.button_a.x_offset * m.button_b.y_offset ≠ 0)
    (hxa : m.button_a.x_offset ≠ 0) (p : Nat × Nat) :
    press_buttons m threshold = some (some p) ↔
      ∃ a b : Int,
        a * m.button_a.x_offset + b * m.button_b.x_offset = m.prize.x ∧
        a * m.button_a.y_offset + b * m.button_b.y_offset = m.prize.y ∧
        0 ≤ a ∧ a ≤ threshold.getD i128MAX ∧
        0 ≤ b ∧ b ≤ threshold.getD i128MAX ∧
        p = (a.toNat, b.toNat) := by
  obtain ⟨⟨xa, ya⟩, ⟨xb, yb⟩, ⟨px, py⟩⟩ := m
  simp only at hdet hxa ⊢
  by_cases hdvd : (ya * xb - xa * yb) ∣ (ya * px - xa * py)
  · set b0 : Int := (ya * px - xa * py) / (ya * xb - xa * yb) with hb0
    have hb0mul : b0 * (ya * xb - xa * yb) = ya * px - xa * py := by
      rw [hb0, Int.ediv_mul_cancel hdvd]
    have h1 : full_div (ya * px - xa * py) (ya * xb - xa * yb) = some (some b0) := by
      unfold full_div
      rw [if_neg hdet, if_pos hdvd]
    by_cases hdvd2 : xa ∣ (px - xb * b0)
    · set a0 : Int := (px - xb * b0) / xa with ha0
      have ha0mul : a0 * xa = px - xb * b0 := by
        rw [ha0, Int.ediv_mul_cancel hdvd2]
      have h2 : full_div (px - xb * b0) xa = some (some a0) := by
        unfold full_div
        rw [if_neg hxa, if_pos hdvd2]
      unfold press_buttons
      simp only [h1, h2]
      constructor
      · intro h
        have hsome : (check_and_convert a0 threshold).bind (fun av =>
            (check_and_convert b0 threshold).map fun bv => (av, bv)) = some p :=
          Option.some.inj h
        unfold check_and_convert at hsome
        by_cases hca : 0 ≤ a0 ∧ a0 ≤ threshold.getD i128MAX
        · by_cases hcb : 0 ≤ b0 ∧ b0 ≤ threshold.getD i128MAX
          · rw [if_pos hca, if_pos hcb] at hsome
            simp only [Option.some_bind, Option.map_some, Option.map_some', Option.some.injEq] at hsome
            refine ⟨a0, b0, ?_, ?_, hca.1, hca.2, hcb.1, hcb.2, hsome.symm⟩
            · linarith [ha0mul]
            · have hy : ya * (a0 * xa) = ya * (px - xb * b0) := by rw [ha0mul]
              have expand : xa * (a0 * ya + b0 * yb) = xa * py := by
                linear_combination hy - hb0mul
              exact mul_left_cancel₀ hxa expand
          · rw [if_pos hca, if_neg hcb] at hsome
            simp at hsome
        · rw [if_neg hca] at hsome
          simp at hsome
      · rintro ⟨a, b, he1, he2, ha1, ha2, hb1, hb2, hp⟩
        have hbb : b * (ya * xb - xa * yb) = ya * px - xa * py := by
          linear_combination ya * he1 - xa * he2
        have hb_eq : b = b0 := by
          rw [hb0, ← hbb, Int.mul_ediv_cancel _ hdet]
        have haa : a * xa = px - xb * b0 := by
          rw [← hb_eq]
          linarith [he1]
        have ha_eq : a = a0 := by
          rw [ha0, ← haa, Int.mul_ediv_cancel _ hxa]
        subst hb_eq
        subst ha_eq
        unfold check_and_convert
        rw [if_pos ⟨ha1, ha2⟩, if_pos ⟨hb1, hb2⟩]
        simp [hp]
    · have h2 : full_div (px - xb * b0) xa = some none := by
        unfold full_div
        rw [if_neg hxa, if_neg hdvd2]
      unfold press_buttons
      simp only [h1, h2]
      constructor
      · intro h
        simp at h
      · rintro ⟨a, b, he1, he2, ha1, ha2, hb1, hb2, hp⟩
        exfalso
        have hbb : b * (ya * xb - xa * yb) = ya * px - xa * py := by
          linear_combination ya * he1 - xa * he2
        have hb_eq : b = b0 := by
          rw [hb0, ← hbb, Int.mul_ediv_cancel _ hdet]
        apply hdvd2
        refine ⟨a, ?_⟩
        rw [← hb_eq]
        linarith [he1]
  · have h1 : full_div (ya * px - xa * py) (ya * xb - xa * yb) = some none := by
      unfold full_div
      rw [if_neg hdet, if_neg hdvd]
    unfold press_buttons
    simp only [h1]
    constructor
    · intro h
      simp at h
    · rintro ⟨a, b, he1, he2, ha1, ha2, hb1, hb2, hp⟩
      exfalso
      apply hdvd
      refine ⟨b, ?_⟩
      linear_combination xa * he2 - ya * he1

open Aoc.Day12 in
theorem day12_panics_on_1x2 :
    calculate_total_price [['A', 'A']] = none ∧
      calculate_total_price [['A']] = some (1 * (2 * (1 + 1)), 1 * 4) := by
  constructor
  · decide
  · decide

open Aoc.Day13 in
theorem press_buttons_char_witness :
    press_buttons exampleMachine1 (some 100) = some (some (80, 40)) ↔
      (∃ a b : Int,
        a * exampleMachine1.button_a.x_offset +
          b * exampleMachine1.button_b.x_offset = exampleMachine1.prize.x ∧
        a * exampleMachine1.button_a.y_offset +
          b * exampleMachine1.button_b.y_offset = exampleMachine1.prize.y ∧
        0 ≤ a ∧ a ≤ (some (100 : Int)).getD i128MAX ∧
        0 ≤ b ∧ b ≤ (some (100 : Int)).getD i128MAX ∧
        ((80, 40) : Nat × Nat) = (a.toNat, b.toNat)) :=
  press_buttons_char exampleMachine1 (some 100) (by decide) (by decide) (80, 40)

/-! ### Day 9 lemmas -/

namespace Aoc

namespace Day9

theorem findFree_some_spec {bs : List Block} {s l : Nat}
    (h : findFree bs s = some l) :
    s ≤ l ∧ l < bs.length ∧ bs.getD l Block.Free = Block.Free ∧
      ∀ i, s ≤ i → i < l → bs.getD i Block.Free ≠ Block.Free := by
  unfold findFree at h
  rw [Option.map_eq_some'] at h
  obtain ⟨i0, hfind, rfl⟩ := h
  rw [List.findIdx?_eq_some_iff_getElem] at hfind
  obtain ⟨hlt, hp, hmin⟩ := hfind
  have hlt2 : i0 < bs.length - s := by simpa using hlt
  have hlen : i0 + s < bs.length := by omega
  have hv : bs[s + i0]? = some ((bs.drop s).get ⟨i0, hlt⟩) := by
    rw [← List.getElem?_drop]
    simp
  have hvFree : (bs.drop s).get ⟨i0, hlt⟩ = Block.Free := by
    have := hp
    simp only [List.get_eq_getElem]
    simpa using this
  refine ⟨by omega, hlen, ?_, ?_⟩
  · rw [Nat.add_comm i0 s, List.getD_eq_getElem?_getD, hv, hvFree]
    rfl
  · intro i hsi hil hc
    have hj : i - s < i0 := by omega
    have hjlt : i - s < (bs.drop s).length := by simpa using (by omega : i - s < bs.length - s)
    have hm := hmin (i - s) hj
    have hw : bs[i]? = some ((bs.drop s).get ⟨i - s, hjlt⟩) := by
      conv_lhs => rw [show i = s + (i - s) by omega]
      rw [← List.getElem?_drop]
      simp
    rw [List.getD_eq_getElem?_getD, hw] at hc
    apply hm
    simp only [List.get_eq_getElem] at hc
    simpa using hc

theorem findFree_none_spec {bs : List Block} {s : Nat}
    (h : findFree bs s = none) :
    ∀ i, s ≤ i → i < bs.length → bs.getD i Block.Free ≠ Block.Free := by
  unfold findFree at h
  rw [Option.map_eq_none'] at h
  rw [List.findIdx?_eq_none_iff] at h
  intro i hsi hil hc
  have hjlt : i - s < (bs.drop s).length := by simpa using (by omega : i - s < bs.length - s)
  have hw : bs[i]? = some ((bs.drop s).get ⟨i - s, hjlt⟩) := by
    conv_lhs => rw [show i = s + (i - s) by omega]
    rw [← List.getElem?_drop]
    simp
  rw [List.getD_eq_getElem?_getD, hw] at hc
  simp only [Option.getD_some] at hc
  have hmem : (bs.drop s).get ⟨i - s, hjlt⟩ ∈ bs.drop s := List.get_mem _ _ _
  have hfalse := h _ hmem
  rw [hc] at hfalse
  simp at hfalse

theorem findFileDesc_some_spec {bs : List Block} {rlim r : Nat}
    (h : findFileDesc bs rlim = some r) :
    r < rlim ∧ bs.getD r Block.Free ≠ Block.Free ∧
      ∀ k, r < k → k < rlim → bs.getD k Block.Free = Block.Free := by
  induction rlim with
  | zero => simp [findFileDesc] at h
  | succ n ih =>
    rw [findFileDesc] at h
    split at h
    · rename_i hne
      cases h
      exact ⟨Nat.lt_succ_self _, hne, fun k hk1 hk2 => by omega⟩
    · rename_i hfree
      obtain ⟨h1, h2, h3⟩ := ih h
      refine ⟨by omega, h2, ?_⟩
      intro k hk1 hk2
      by_cases hkn : k = n
      · subst hkn
        by_contra hc
        exact hfree hc
      · exact h3 k hk1 (by omega)

theorem findFileDesc_none_spec {bs : List Block} {rlim : Nat}
    (h : findFileDesc bs rlim = none) :
    ∀ k, k < rlim → bs.getD k Block.Free = Block.Free := by
  induction rlim with
  | zero => intro k hk; omega
  | succ n ih =>
    rw [findFileDesc] at h
    split at h
    · cases h
    · rename_i hfree
      intro k hk
      by_cases hkn : k = n
      · subst hkn
        by_contra hc
        exact hfree hc
      · exact ih h k (by omega)

theorem cons_getD_set_perm {α : Type} (xs : List α) (m : Nat) (x d : α)
    (h : m < xs.length) :
    List.Perm (xs.getD m d :: xs.set m x) (x :: xs) := by
  induction xs generalizing m with
  | nil => simp at h
  | cons y ys ih =>
    cases m with
    | zero =>
      simp only [List.getD_cons_zero, List.set_cons_zero]
      exact List.Perm.swap x y ys
    | succ n =>
      simp only [List.getD_cons_succ, List.set_cons_succ]
      have hn : n < ys.length := by simpa using h
      exact ((List.Perm.swap y (ys.getD n d) (ys.set n x)).trans
        ((ih n hn).cons y)).trans (List.Perm.swap x y ys)

theorem swapAt_perm (xs : List Block) (i j : Nat) (hi : i < xs.length)
    (hj : j < xs.length) : List.Perm (swapAt xs i j) xs := by
  induction xs generalizing i j with
  | nil => simp at hi
  | cons y ys ih =>
    cases i with
    | zero =>
      cases j with
      | zero =>
        unfold swapAt
        simp
      | succ n =>
        unfold swapAt
        simp only [List.getD_cons_succ, List.set_cons_zero, List.getD_cons_zero,
          List.set_cons_succ]
        have hn : n < ys.length := by simpa using hj
        exact cons_getD_set_perm ys n y Block.Free hn
    | succ m =>
      cases j with
      | zero =>
        unfold swapAt
        simp only [List.getD_cons_zero, List.getD_cons_succ, List.set_cons_succ,
          List.set_cons_zero]
        have hm : m < ys.length := by simpa using hi
        exact cons_getD_set_perm ys m y Block.Free hm
      | succ n =>
        unfold swapAt
        simp only [List.getD_cons_succ, List.set_cons_succ]
        have hm : m < ys.length := by simpa using hi
        have hn : n < ys.length := by simpa using hj
        exact List.Perm.cons y (ih m n hm hn)


theorem swapAt_length (bs : List Block) (l r : Nat) :
    (swapAt bs l r).length = bs.length := by
  unfold swapAt
  simp

theorem swapAt_getD (bs : List Block) (l r k : Nat) (hl : l < bs.length)
    (hr : r < bs.length) :
    (swapAt bs l r).getD k Block.Free =
      if k = l ∧ k ≠ r then bs.getD r Block.Free
      else if k = r then bs.getD l Block.Free
      else bs.getD k Block.Free := by
  unfold swapAt
  rw [List.getD_eq_getElem?_getD, List.getElem?_set]
  by_cases hkr : r = k
  · rw [if_pos hkr]
    rw [if_pos (by simpa [List.length_set] using hkr ▸ hr)]
    rw [if_neg (fun hz => hz.2 hkr.symm), if_pos hkr.symm]
    simp
  · rw [if_neg hkr, List.getElem?_set]
    by_cases hkl : l = k
    · rw [if_pos hkl, if_pos (hkl ▸ hl)]
      rw [if_pos ⟨hkl.symm, fun hz => hkr hz.symm⟩]
      rw [List.getD_eq_getElem?_getD, List.getElem?_eq_getElem hr]
      simp
    · rw [if_neg hkl,
        if_neg (fun hz : k = l ∧ k ≠ r => hkl hz.1.symm),
        if_neg (fun hz : k = r => hkr hz.symm),
        List.getD_eq_getElem?_getD]




theorem compactLoop_eq_swap {blocks : List Block} {lpos rlim l r : Nat}
    (h1 : findFree blocks lpos = some l) (h2 : findFileDesc blocks rlim = some r)
    (hlr : l < r) :
    compactLoop blocks lpos rlim = compactLoop (swapAt blocks l r) (l + 1) r := by
  rw [compactLoop, h1]
  split
  next e1 e2 =>
    injection e1 with he1
    subst he1
    rw [h2] at e2
    injection e2 with he2
    subst he2
    rw [if_pos hlr]
  next e1 e2 =>
    rw [h2] at e2
    try cases e2
  next e1 => exact Option.noConfusion e1

theorem compactLoop_eq_stop_ge {blocks : List Block} {lpos rlim l r : Nat}
    (h1 : findFree blocks lpos = some l) (h2 : findFileDesc blocks rlim = some r)
    (hlr : ¬ l < r) :
    compactLoop blocks lpos rlim = blocks := by
  rw [compactLoop, h1]
  split
  next e1 e2 =>
    injection e1 with he1
    subst he1
    rw [h2] at e2
    injection e2 with he2
    subst he2
    rw [if_neg hlr]
  next e1 e2 =>
    rw [h2] at e2
    try cases e2
  next e1 => exact Option.noConfusion e1

theorem compactLoop_eq_stop_noFile {blocks : List Block} {lpos rlim : Nat} {val : Nat}
    (h1 : findFree blocks lpos = some val) (h2 : findFileDesc blocks rlim = none) :
    compactLoop blocks lpos rlim = blocks := by
  rw [compactLoop, h1]
  split
  next e1 e2 =>
    rw [h2] at e2
    try cases e2
  next e1 e2 => rfl
  next e1 => exact Option.noConfusion e1

theorem compactLoop_eq_stop_noFree {blocks : List Block} {lpos rlim : Nat}
    (h1 : findFree blocks lpos = none) :
    compactLoop blocks lpos rlim = blocks := by
  rw [compactLoop, h1]

theorem compactLoop_spec (blocks : List Block) (lpos rlim : Nat) :
    rlim ≤ blocks.length →
    (∀ i, i < lpos → i < blocks.length → blocks.getD i Block.Free ≠ Block.Free) →
    (∀ i, rlim ≤ i → i < blocks.length → blocks.getD i Block.Free = Block.Free) →
    List.Perm (compactLoop blocks lpos rlim) blocks ∧
      (∀ i j, i < j → j < (compactLoop blocks lpos rlim).length →
        (compactLoop blocks lpos rlim).getD i Block.Free = Block.Free →
        (compactLoop blocks lpos rlim).getD j Block.Free = Block.Free) := by
  induction blocks, lpos, rlim using compactLoop.induct with
  | case1 blocks lpos rlim l r h2 h1 hlr ih =>
    intro hlen hL hR
    obtain ⟨hl_ge, hl_lt, hl_free, hl_min⟩ := findFree_some_spec h1
    obtain ⟨hr_lt, hr_file, hr_max⟩ := findFileDesc_some_spec h2
    have hr_len : r < blocks.length := by omega
    rw [compactLoop_eq_swap h1 h2 hlr]
    have hlen2 : (swapAt blocks l r).length = blocks.length := swapAt_length blocks l r
    have hL2 : ∀ i, i < l + 1 → i < (swapAt blocks l r).length →
        (swapAt blocks l r).getD i Block.Free ≠ Block.Free := by
      intro i hi hilen
      rw [swapAt_getD blocks l r i hl_lt hr_len]
      by_cases hil : i = l
      · rw [if_pos ⟨hil, by omega⟩]
        exact hr_file
      · rw [if_neg (fun hz : i = l ∧ i ≠ r => hil hz.1), if_neg (by omega : ¬ i = r)]
        by_cases hip : i < lpos
        · exact hL i hip (by omega)
        · exact hl_min i (by omega) (by omega)
    have hR2 : ∀ i, r ≤ i → i < (swapAt blocks l r).length →
        (swapAt blocks l r).getD i Block.Free = Block.Free := by
      intro i hi hilen
      rw [swapAt_getD blocks l r i hl_lt hr_len]
      by_cases hir : i = r
      · rw [if_neg (fun hz : i = l ∧ i ≠ r => hz.2 hir), if_pos hir]
        exact hl_free
      · rw [if_neg (by omega : ¬ (i = l ∧ i ≠ r)), if_neg hir]
        by_cases hirlim : i < rlim
        · exact hr_max i (by omega) hirlim
        · exact hR i (by omega) (by omega)
    obtain ⟨ihperm, ihpart⟩ := ih (by omega) hL2 hR2
    exact ⟨ihperm.trans (swapAt_perm blocks l r hl_lt hr_len), ihpart⟩
  | case2 blocks lpos rlim l r h2 h1 hlr =>
    intro hlen hL hR
    obtain ⟨hl_ge, hl_lt, hl_free, hl_min⟩ := findFree_some_spec h1
    obtain ⟨hr_lt, hr_file, hr_max⟩ := findFileDesc_some_spec h2
    rw [compactLoop_eq_stop_ge h1 h2 hlr]
    refine ⟨List.Perm.refl blocks, ?_⟩
    intro i j hij hjlen hifree
    have hilpos : ¬ i < lpos := fun hc => hL i hc (by omega) hifree
    have hil : ¬ i < l := fun hc => hl_min i (by omega) hc hifree
    by_cases hjrlim : j < rlim
    · exact hr_max j (by omega) hjrlim
    · exact hR j (by omega) hjlen
  | case3 blocks lpos rlim val h2 h1 =>
    intro hlen hL hR
    have hfree := findFileDesc_none_spec h2
    rw [compactLoop_eq_stop_noFile h1 h2]
    refine ⟨List.Perm.refl blocks, ?_⟩
    intro i j hij hjlen hifree
    by_cases hjrlim : j < rlim
    · exact hfree j hjrlim
    · exact hR j (by omega) hjlen
  | case4 blocks lpos rlim h1 =>
    intro hlen hL hR
    have hnone := findFree_none_spec h1
    rw [compactLoop_eq_stop_noFree h1]
    refine ⟨List.Perm.refl blocks, ?_⟩
    intro i j hij hjlen hifree
    exfalso
    by_cases hip : i < lpos
    · exact hL i hip (by omega) hifree
    · exact hnone i (by omega) (by omega) hifree

/-- Day 9 part 1 `compact_disk` returns a permutation of its input in which
every file block precedes every free block (equivalently: any block at a
larger index than a `Free` block is itself `Free`). -/
theorem compact_disk_perm_and_partitioned (blocks : List Block) :
    List.Perm (compact_disk blocks) blocks ∧
      (∀ i j, i < j → j < (compact_disk blocks).length →
        (compact_disk blocks).getD i Block.Free = Block.Free →
        (compact_disk blocks).getD j Block.Free = Block.Free) := by
  unfold compact_disk
  by_cases hemp : blocks.isEmpty
  · rw [if_pos hemp]
    have : blocks = [] := List.isEmpty_iff.mp hemp
    subst this
    exact ⟨List.Perm.refl [], fun i j hij hjlen => by simp at hjlen⟩
  · rw [if_neg hemp]
    exact compactLoop_spec blocks 0 blocks.length (Nat.le_refl _)
      (fun i hi _ => by omega) (fun i hi hilen => by omega)

theorem compact_disk_eval_example :
    compact_disk [Block.Free, Block.File 0, Block.Free] =
      [Block.File 0, Block.Free, Block.Free] := by
  unfold compact_disk
  rw [if_neg (by decide)]
  rw [compactLoop_eq_swap (l := 0) (r := 1) (by decide) (by decide) (by decide)]
  rw [show swapAt [Block.Free, Block.File 0, Block.Free] 0 1 =
    [Block.File 0, Block.Free, Block.Free] from by decide]
  rw [compactLoop_eq_stop_ge (l := 1) (r := 0) (by decide) (by decide) (by decide)]

theorem compact_disk_perm_and_partitioned_witness :
    List.Perm (compact_disk [Block.Free, Block.File 0, Block.Free])
        [Block.Free, Block.File 0, Block.Free] ∧
      (compact_disk [Block.Free, Block.File 0, Block.Free]).getD 2 Block.Free =
        Block.Free :=
  ⟨(compact_disk_perm_and_partitioned [Block.Free, Block.File 0, Block.Free]).1,
    (compact_disk_perm_and_partitioned [Block.Free, Block.File 0, Block.Free]).2
      1 2 (by decide)
      (by rw [compact_disk_eval_example]; decide)
      (by rw [compact_disk_eval_example]; decide)⟩

end Day9

end Aoc

namespace Aoc

namespace Day11

theorem naiveExpandRounds_nil (n : Nat) : naiveExpandRounds n [] = [] := by
  induction n with
  | zero => rfl
  | succ k ih => rw [naiveExpandRounds]; simpa using ih

theorem naiveExpandRounds_append (n : Nat) (xs ys : List Nat) :
    naiveExpandRounds n (xs ++ ys) =
      naiveExpandRounds n xs ++ naiveExpandRounds n ys := by
  induction n generalizing xs ys with
  | zero => rfl
  | succ k ih =>
    rw [naiveExpandRounds, List.flatMap_append, ih]
    rfl

theorem naiveExpandRounds_length (d : Nat) :
    ∀ xs : List Nat, (naiveExpandRounds d xs).length =
      (xs.map fun x => naiveCount x d).sum := by
  induction d with
  | zero =>
    intro xs
    rw [naiveExpandRounds]
    induction xs with
    | nil => rfl
    | cons x t iht =>
      simp only [List.map_cons, List.sum_cons, List.length_cons, iht]
      rw [show naiveCount x 0 = 1 from rfl]
      omega
  | succ k ih =>
    intro xs
    rw [naiveExpandRounds, ih]
    induction xs with
    | nil => rfl
    | cons x t iht =>
      simp only [List.flatMap_cons, List.map_append, List.sum_append, List.map_cons,
        List.sum_cons]
      rw [iht, naiveCount]

theorem naiveCount_eq_length (num d : Nat) :
    naiveCount num d = (naiveExpandRounds d [num]).length := by
  rw [naiveExpandRounds_length]
  simp

theorem memoOk_nil : MemoOk [] := by
  intro d num c h
  unfold memoLookup at h
  rw [List.lookup_nil] at h
  simp at h

theorem memoOk_insert {memo : Memo} (hok : MemoOk memo) {d num c : Nat}
    (hc : c = naiveCount num d) : MemoOk (memoInsert memo d num c) := by
  intro d2 num2 c2 h
  unfold memoInsert memoLookup at h
  rw [List.lookup_cons] at h
  by_cases hd : d = d2
  · subst hd
    simp only [beq_self_eq_true] at h
    simp only [Option.some_bind] at h
    rw [List.lookup_cons] at h
    by_cases hnum : num = num2
    · subst hnum
      simp only [beq_self_eq_true] at h
      cases h
      exact hc
    · have hnf : (num2 == num) = false := by simpa using Ne.symm hnum
      simp only [hnf] at h
      cases hm : List.lookup d memo with
      | none =>
        rw [hm] at h
        simp at h
      | some inner =>
        rw [hm] at h
        simp only [Option.getD_some] at h
        apply hok d num2 c2
        unfold memoLookup
        rw [hm]
        simpa using h
  · have hdf : (d2 == d) = false := by simpa using Ne.symm hd
    simp only [hdf] at h
    exact hok d2 num2 c2 h

theorem blink_memo_correct :
    ∀ (depth num : Nat) (memo : Memo), MemoOk memo →
      (blink_num_n_times num depth memo).1 = naiveCount num depth ∧
        MemoOk (blink_num_n_times num depth memo).2 := by
  intro depth
  induction depth with
  | zero =>
    intro num memo hok
    exact ⟨rfl, hok⟩
  | succ d ih =>
    intro num memo hok
    rw [blink_num_n_times]
    cases hmemo : memoLookup memo (d + 1) num with
    | some count =>
      simp only
      exact ⟨hok (d + 1) num count hmemo, hok⟩
    | none =>
      simp only
      have key : ∀ (ns : List Nat) (acc : Nat) (m : Memo), MemoOk m →
          (ns.foldl
            (fun acc n =>
              let r := blink_num_n_times n d acc.2
              (acc.1 + r.1, r.2)) (acc, m)).1 =
            acc + (ns.map fun n => naiveCount n d).sum ∧
          MemoOk (ns.foldl
            (fun acc n =>
              let r := blink_num_n_times n d acc.2
              (acc.1 + r.1, r.2)) (acc, m)).2 := by
        intro ns
        induction ns with
        | nil =>
          intro acc m hm
          exact ⟨by simp, hm⟩
        | cons x t iht =>
          intro acc m hm
          obtain ⟨hx1, hx2⟩ := ih x m hm
          simp only [List.foldl_cons, List.map_cons, List.sum_cons]
          obtain ⟨ht1, ht2⟩ := iht (acc + (blink_num_n_times x d m).1)
            (blink_num_n_times x d m).2 hx2
          constructor
          · rw [ht1, hx1]
            omega
          · exact ht2
      obtain ⟨k1, k2⟩ := key (next_nums num) 0 memo hok
      constructor
      · simp only [k1]
        rw [show naiveCount num (d + 1) =
          ((next_nums num).map fun n => naiveCount n d).sum from rfl]
        omega
      · exact memoOk_insert k2 (by
          rw [k1]
          rw [show naiveCount num (d + 1) =
            ((next_nums num).map fun n => naiveCount n d).sum from rfl]
          omega)

theorem blink_n_times_eq_naive (nums : List Nat) (n : Nat) :
    blink_n_times nums n = (nums.map fun num => naiveCount num n).sum := by
  unfold blink_n_times
  have key : ∀ (ns : List Nat) (acc : Nat) (m : Memo), MemoOk m →
      (ns.foldl
        (fun acc num =>
          let r := blink_num_n_times num n acc.2
          (acc.1 + r.1, r.2)) (acc, m)).1 =
        acc + (ns.map fun num => naiveCount num n).sum := by
    intro ns
    induction ns with
    | nil =>
      intro acc m hm
      simp
    | cons x t iht =>
      intro acc m hm
      obtain ⟨hx1, hx2⟩ := blink_memo_correct n x m hm
      simp only [List.foldl_cons, List.map_cons, List.sum_cons]
      rw [iht (acc + (blink_num_n_times x n m).1) (blink_num_n_times x n m).2 hx2,
        hx1]
      omega
  rw [key nums 0 [] memoOk_nil]
  omega

/-- Day 11: the memoized `blink_n_times` equals the naive unmemoized
expansion count; expanding `0` one round yields the single successor `1`;
the total is invariant under the order the input numbers (and hence the memo
entries) are processed. -/
theorem day11_blink_matches_naive_expansion :
    (∀ (nums : List Nat) (n : Nat),
        blink_n_times nums n =
          (nums.map fun num => (naiveExpandRounds n [num]).length).sum) ∧
      blink_n_times [0] 1 = 1 ∧ next_nums 0 = [1] ∧
      (∀ (nums1 nums2 : List Nat) (n : Nat),
        blink_n_times (nums1 ++ nums2) n = blink_n_times (nums2 ++ nums1) n) := by
  refine ⟨?_, ?_, ?_, ?_⟩
  · intro nums n
    rw [blink_n_times_eq_naive]
    simp only [naiveCount_eq_length]
  · rfl
  · rfl
  · intro nums1 nums2 n
    rw [blink_n_times_eq_naive, blink_n_times_eq_naive]
    simp only [List.map_append, List.sum_append]
    omega

end Day11

end Aoc

namespace Aoc

namespace Day1

theorem digitChar_spec (d : Nat) (h : d < 10) :
    (digitChar d).isDigit = true ∧ (digitChar d).toNat - 48 = d ∧
      digitChar d ≠ '+' ∧ digitChar d ≠ '-' ∧ digitChar d ≠ '\n' ∧
      isSpaceChar (digitChar d) = false := by
  interval_cases d <;> exact ⟨by decide, by decide, by decide, by decide, by decide, by decide⟩

theorem natDigitsChars_all_digits (n : Nat) :
    ∀ c ∈ natDigitsChars n, c.isDigit = true ∧ c ≠ '+' ∧ c ≠ '-' ∧
      c ≠ '\n' ∧ isSpaceChar c = false := by
  induction n using Nat.strong_induction_on with
  | _ n ih =>
    rw [natDigitsChars]
    by_cases h : n = 0
    · simp [h]
    · rw [dif_neg h]
      intro c hc
      rcases List.mem_cons.mp hc with hc | hc
      · subst hc
        obtain ⟨h1, _, h3, h4, h5, h6⟩ := digitChar_spec (n % 10) (Nat.mod_lt n (by omega))
        exact ⟨h1, h3, h4, h5, h6⟩
      · exact ih (n / 10) (Nat.div_lt_self (Nat.pos_of_ne_zero h) (by omega)) c hc

theorem foldl_natDigitsChars_reverse (n : Nat) :
    ∀ acc, ((natDigitsChars n).reverse).foldl foldDigit acc =
      acc * 10 ^ (natDigitsChars n).length + n := by
  induction n using Nat.strong_induction_on with
  | _ n ih =>
    intro acc
    rw [natDigitsChars]
    by_cases h : n = 0
    · simp [h]
    · rw [dif_neg h]
      simp only [List.reverse_cons, List.foldl_append, List.length_cons]
      rw [ih (n / 10) (Nat.div_lt_self (Nat.pos_of_ne_zero h) (by omega)) acc]
      simp only [List.foldl_cons, List.foldl_nil, foldDigit]
      obtain ⟨_, h2, _⟩ := digitChar_spec (n % 10) (Nat.mod_lt n (by omega))
      rw [h2, Nat.pow_succ]
      have := Nat.div_add_mod n 10
      ring_nf
      omega

theorem parseDigitsAcc_append (ds : List Char) (hds : ∀ c ∈ ds, c.isDigit = true) :
    ∀ (acc : Nat) (rest : List Char),
      parseDigitsAcc acc (ds ++ rest) = parseDigitsAcc (ds.foldl foldDigit acc) rest := by
  induction ds with
  | nil => intro acc rest; rfl
  | cons c cs ih =>
    intro acc rest
    rw [List.cons_append, parseDigitsAcc]
    rw [if_pos (hds c (List.mem_cons_self c cs))]
    rw [ih (fun x hx => hds x (List.mem_cons_of_mem c hx))]
    rfl

theorem parseDigitsAcc_stop (acc : Nat) (rest : List Char)
    (h : ∀ c, rest.head? = some c → c.isDigit = false) :
    parseDigitsAcc acc rest = (acc, rest) := by
  cases rest with
  | nil => rfl
  | cons c cs =>
    rw [parseDigitsAcc, if_neg]
    rw [h c rfl]
    simp

theorem renderNat_facts (n : Nat) :
    (∃ c cs, renderNat n = c :: cs) ∧
      (∀ x ∈ renderNat n, x.isDigit = true ∧ x ≠ '+' ∧ x ≠ '-' ∧
        x ≠ '\n' ∧ isSpaceChar x = false) ∧
      (renderNat n).foldl foldDigit 0 = n := by
  unfold renderNat
  by_cases h : n = 0
  · subst h
    refine ⟨⟨'0', [], by simp⟩, ?_, by decide⟩
    intro x hx
    simp at hx
    subst hx
    exact ⟨by decide, by decide, by decide, by decide, by decide⟩
  · rw [if_neg h]
    refine ⟨?_, ?_, ?_⟩
    · rcases hrev : (natDigitsChars n).reverse with _ | ⟨c, cs⟩
      · exfalso
        have : natDigitsChars n = [] := by
          have := congrArg List.reverse hrev
          simpa using this
        rw [natDigitsChars, dif_neg h] at this
        cases this
      · exact ⟨c, cs, rfl⟩
    · intro x hx
      exact natDigitsChars_all_digits n x (List.mem_reverse.mp hx)
    · rw [foldl_natDigitsChars_reverse n 0]
      omega

theorem parse_i64_render (v : Int) (rest : List Char)
    (hv : I64_MIN ≤ v ∧ v ≤ I64_MAX)
    (hrest : ∀ c, rest.head? = some c → c.isDigit = false) :
    parse_i64 (renderInt v ++ rest) = some (v, rest) := by
  obtain ⟨⟨c0, cs, hsh⟩, hall, hval⟩ := renderNat_facts v.natAbs
  have hc0 : c0.isDigit = true ∧ c0 ≠ '+' ∧ c0 ≠ '-' := by
    have := hall c0 (by rw [hsh]; exact List.mem_cons_self c0 cs)
    exact ⟨this.1, this.2.1, this.2.2.1⟩
  have hacc : parseDigitsAcc (c0.toNat - 48) (cs ++ rest) = (v.natAbs, rest) := by
    have h1 : parseDigitsAcc (c0.toNat - 48) (cs ++ rest) =
        parseDigitsAcc (cs.foldl foldDigit (c0.toNat - 48)) rest := by
      apply parseDigitsAcc_append
      intro x hx
      exact (hall x (by rw [hsh]; exact List.mem_cons_of_mem c0 hx)).1
    have h2 : cs.foldl foldDigit (c0.toNat - 48) = v.natAbs := by
      have h3 := hval
      rw [hsh] at h3
      simpa [foldDigit] using h3
    rw [h1, h2]
    exact parseDigitsAcc_stop _ _ hrest
  unfold renderInt
  by_cases hneg : v < 0
  · rw [if_pos hneg, hsh]
    show parse_i64 ('-' :: (c0 :: cs ++ rest)) = some (v, rest)
    unfold parse_i64
    simp only [List.cons_append]
    rw [if_neg (by decide), if_pos (by trivial)]
    simp only
    rw [if_pos hc0.1]
    simp only [hacc]
    rw [if_pos (by
      constructor
      · have : ((v.natAbs : Int)) = -v := by omega
        simp only [this]
        omega
      · have : ((v.natAbs : Int)) = -v := by omega
        simp only [this]
        omega)]
    have : (-1 : Int) * (v.natAbs : Int) = v := by omega
    rw [this]
  · rw [if_neg hneg, hsh]
    show parse_i64 (c0 :: (cs ++ rest)) = some (v, rest)
    unfold parse_i64
    simp only [List.cons_append]
    rw [if_neg hc0.2.1, if_neg hc0.2.2]
    simp only
    rw [if_pos hc0.1]
    simp only [hacc]
    rw [if_pos (by
      constructor
      · have : ((v.natAbs : Int)) = v := by omega
        simp only [this]
        omega
      · have : ((v.natAbs : Int)) = v := by omega
        simp only [this]
        omega)]
    have : (1 : Int) * (v.natAbs : Int) = v := by omega
    rw [this]

theorem space1_cons (rest : List Char)
    (h : ∀ c, rest.head? = some c → isSpaceChar c = false) :
    space1 (' ' :: rest) = some rest := by
  have hstep : space1 (' ' :: rest) = some (rest.dropWhile isSpaceChar) := rfl
  rw [hstep]
  cases rest with
  | nil => rfl
  | cons c cs =>
    rw [List.dropWhile_cons_of_neg (by simp [h c rfl])]

theorem renderInt_facts (v : Int) :
    (∃ c cs, renderInt v = c :: cs) ∧
      (∀ c, (renderInt v).head? = some c →
        isSpaceChar c = false ∧ c ≠ '\n') := by
  obtain ⟨⟨c0, cs, hsh⟩, hall, _⟩ := renderNat_facts v.natAbs
  unfold renderInt
  by_cases hneg : v < 0
  · rw [if_pos hneg]
    refine ⟨⟨'-', renderNat v.natAbs, rfl⟩, ?_⟩
    intro c hc
    simp only [List.head?_cons, Option.some.injEq] at hc
    subst hc
    exact ⟨by decide, by decide⟩
  · rw [if_neg hneg]
    refine ⟨⟨c0, cs, hsh⟩, ?_⟩
    intro c hc
    rw [hsh] at hc
    simp only [List.head?_cons, Option.some.injEq] at hc
    have hcf := hall c0 (by rw [hsh]; exact List.mem_cons_self c0 cs)
    subst hc
    exact ⟨hcf.2.2.2.2, hcf.2.2.2.1⟩

theorem parse_line_render (p : Int × Int) (rest : List Char)
    (h1 : I64_MIN ≤ p.1 ∧ p.1 ≤ I64_MAX) (h2 : I64_MIN ≤ p.2 ∧ p.2 ≤ I64_MAX)
    (hrest : ∀ c, rest.head? = some c → c.isDigit = false) :
    parse_line (renderPair p ++ rest) = some (p, rest) := by
  obtain ⟨⟨cb, csb, hshb⟩, hheadb⟩ := renderInt_facts p.2
  have hassoc : renderPair p ++ rest =
      renderInt p.1 ++ (' ' :: (renderInt p.2 ++ rest)) := by
    unfold renderPair
    simp
  rw [hassoc]
  unfold parse_line
  rw [parse_i64_render p.1 _ h1 (by intro c hc; cases hc; decide)]
  simp only [Option.some_bind]
  rw [space1_cons _ (by
    intro c hc
    rw [hshb, List.cons_append, List.head?_cons] at hc
    cases hc
    exact (hheadb cb (by rw [hshb]; rfl)).1)]
  simp only [Option.some_bind]
  rw [parse_i64_render p.2 rest h2 hrest]
  rfl

theorem renderTail_head_not_digit (qs : List (Int × Int)) (suffix : List Char)
    (hsuffix : ∀ c, suffix.head? = some c → c.isDigit = false) :
    ∀ c, (renderTail qs ++ suffix).head? = some c → c.isDigit = false := by
  intro c hc
  cases qs with
  | nil => exact hsuffix c hc
  | cons q qs2 =>
    rw [renderTail] at hc
    simp only [List.cons_append, List.head?_cons, Option.some.injEq] at hc
    subst hc
    decide

theorem renderTail_length_ge (qs : List (Int × Int)) :
    qs.length ≤ (renderTail qs).length := by
  induction qs with
  | nil => simp [renderTail]
  | cons q qs2 ih =>
    rw [renderTail]
    simp only [List.length_cons, List.length_append]
    omega

theorem parse_pairs_loop_render (qs : List (Int × Int)) :
    ∀ (fuel : Nat) (acc : List (Int × Int)) (suffix : List Char),
      qs.length ≤ fuel →
      (∀ p ∈ qs, (I64_MIN ≤ p.1 ∧ p.1 ≤ I64_MAX) ∧
        (I64_MIN ≤ p.2 ∧ p.2 ≤ I64_MAX)) →
      (∀ c, suffix.head? = some c → c.isDigit = false ∧ c ≠ '\n') →
      parse_pairs_loop fuel acc (renderTail qs ++ suffix) = (acc ++ qs, suffix) := by
  induction qs with
  | nil =>
    intro fuel acc suffix hfuel hranges hsuffix
    rw [renderTail]
    simp only [List.nil_append, List.append_nil]
    cases fuel with
    | zero => rfl
    | succ f =>
      cases suffix with
      | nil => rfl
      | cons c cs =>
        have hn : parse_newline (c :: cs) = none := by
          have hr : parse_newline (c :: cs) =
              if c = '\n' then some cs else none := rfl
          rw [hr, if_neg (hsuffix c rfl).2]
        rw [parse_pairs_loop, hn]
  | cons q qs2 ih =>
    intro fuel acc suffix hfuel hranges hsuffix
    cases fuel with
    | zero => simp at hfuel
    | succ f =>
      rw [renderTail]
      simp only [List.cons_append, List.append_assoc]
      have hline := parse_line_render q (renderTail qs2 ++ suffix)
        (hranges q (List.mem_cons_self q qs2)).1
        (hranges q (List.mem_cons_self q qs2)).2
        (renderTail_head_not_digit qs2 suffix fun c hc => (hsuffix c hc).1)
      have hred : parse_pairs_loop (f + 1) acc
          ('\n' :: (renderPair q ++ (renderTail qs2 ++ suffix))) =
          (match parse_line (renderPair q ++ (renderTail qs2 ++ suffix)) with
           | none => (acc, '\n' :: (renderPair q ++ (renderTail qs2 ++ suffix)))
           | some (p, r2) => parse_pairs_loop f (acc ++ [p]) r2) := rfl
      rw [hred, hline]
      show parse_pairs_loop f (acc ++ [q]) (renderTail qs2 ++ suffix) =
        (acc ++ q :: qs2, suffix)
      rw [ih f (acc ++ [q]) suffix (by simpa using hfuel)
        (fun p hp => hranges p (List.mem_cons_of_mem q hp)) hsuffix]
      simp

theorem parser_input_render (ps : List (Int × Int)) (suffix : List Char)
    (hps : ps ≠ [])
    (hranges : ∀ p ∈ ps, (I64_MIN ≤ p.1 ∧ p.1 ≤ I64_MAX) ∧
      (I64_MIN ≤ p.2 ∧ p.2 ≤ I64_MAX))
    (hsuffix : ∀ c, suffix.head? = some c → c.isDigit = false ∧ c ≠ '\n') :
    parser_input (renderPairs ps ++ suffix) = some (ps.unzip, suffix) := by
  cases ps with
  | nil => exact absurd rfl hps
  | cons p qs =>
    have hline := parse_line_render p (renderTail qs ++ suffix)
      (hranges p (List.mem_cons_self p qs)).1
      (hranges p (List.mem_cons_self p qs)).2
      (renderTail_head_not_digit qs suffix fun c hc => (hsuffix c hc).1)
    unfold parser_input
    rw [renderPairs, List.append_assoc, hline]
    show some ((parse_pairs_loop ((renderTail qs ++ suffix).length + 1) [p]
        (renderTail qs ++ suffix)).1.unzip,
      (parse_pairs_loop ((renderTail qs ++ suffix).length + 1) [p]
        (renderTail qs ++ suffix)).2) = some ((p :: qs).unzip, suffix)
    rw [parse_pairs_loop_render qs ((renderTail qs ++ suffix).length + 1) [p] suffix
      (by
        have := renderTail_length_ge qs
        simp only [List.length_append]
        omega)
      (fun x hx => hranges x (List.mem_cons_of_mem p hx)) hsuffix]
    simp

/-- Day 1: an input that begins with a valid newline-separated pair list,
followed by anything that does not extend the list (its first character is
neither a digit nor a newline), parses successfully; the answers are computed
from the parsed prefix and the trailing text is silently ignored.  `solution`
returns `none` exactly when not even one line can be parsed at the start. -/
theorem day1_solution_ignores_trailing (ps : List (Int × Int)) (suffix : List Char)
    (hps : ps ≠ [])
    (hranges : ∀ p ∈ ps, (I64_MIN ≤ p.1 ∧ p.1 ≤ I64_MAX) ∧
      (I64_MIN ≤ p.2 ∧ p.2 ≤ I64_MAX))
    (hsuffix : ∀ c, suffix.head? = some c → c.isDigit = false ∧ c ≠ '\n') :
    solution (renderPairs ps ++ suffix) =
      some ⟨total_distance ps.unzip.1 ps.unzip.2,
        similarity_score ps.unzip.1 ps.unzip.2⟩ ∧
      (∀ s, solution s = none ↔ parse_line s = none) := by
  constructor
  · unfold solution
    rw [parser_input_render ps suffix hps hranges hsuffix]
    rfl
  · intro s
    unfold solution parser_input
    cases hline : parse_line s with
    | none => simp
    | some pr => simp

theorem day1_solution_ignores_trailing_witness :
    solution (renderPairs [((3 : Int), (4 : Int))] ++ ['x', 'y', 'z']) =
      some ⟨total_distance ([((3 : Int), (4 : Int))].unzip).1
          ([((3 : Int), (4 : Int))].unzip).2,
        similarity_score ([((3 : Int), (4 : Int))].unzip).1
          ([((3 : Int), (4 : Int))].unzip).2⟩ :=
  (day1_solution_ignores_trailing [(3, 4)] ['x', 'y', 'z'] (by decide) (by decide)
    (by
      intro c hc
      cases hc
      exact ⟨by decide, by decide⟩)).1

end Day1

end Aoc

open Aoc Aoc.Day16


theorem day16_not_lowest :
    calaculate_lowest_score maze16 400 = some (some 3008) ∧
      pathCost maze16 maze16.grid.size maze16.starting_position Offset.DOWN
        bPath 0 = some (maze16.ending_position, 2010) ∧
      2010 < 3008 := by
  refine ⟨by decide, by decide, by decide⟩
namespace Aoc

namespace Day5

theorem filter_length_le_of_imp {α : Type} (l : List α) (p q : α → Bool)
    (h : ∀ x, q x = true → p x = true) :
    (l.filter q).length ≤ (l.filter p).length := by
  induction l with
  | nil => simp
  | cons x xs ih =>
    simp only [List.filter_cons]
    cases hq : q x with
    | true =>
      simp only [h x hq, hq, if_true, List.length_cons]
      omega
    | false =>
      cases hp : p x with
      | true =>
        simp only [hp, hq, Bool.false_eq_true, if_false, if_true, List.length_cons]
        omega
      | false =>
        simp only [hp, hq, Bool.false_eq_true, if_false]
        exact ih

theorem filter_length_lt_of_witness {α : Type} (l : List α) (p q : α → Bool)
    (h : ∀ x, q x = true → p x = true) (v : α) (hv : v ∈ l)
    (hpv : p v = true) (hqv : q v = false) :
    (l.filter q).length < (l.filter p).length := by
  induction l with
  | nil => simp at hv
  | cons x xs ih =>
    simp only [List.filter_cons]
    rcases List.mem_cons.mp hv with hx | hx
    · subst hx
      simp only [hpv, hqv, Bool.false_eq_true, if_false, if_true, List.length_cons]
      have := filter_length_le_of_imp xs p q h
      omega
    · cases hq : q x with
      | true =>
        simp only [h x hq, hq, if_true, List.length_cons]
        have := ih hx
        omega
      | false =>
        cases hp : p x with
        | true =>
          simp only [hp, hq, Bool.false_eq_true, if_false, if_true, List.length_cons]
          have := ih hx
          omega
        | false => exact ih hx

theorem unTmp_cons_lt (subset tmp : List Int) (v : Int) (hv : v ∈ subset)
    (hnt : ¬ v ∈ tmp) : unTmp subset (v :: tmp) < unTmp subset tmp := by
  unfold unTmp
  apply filter_length_lt_of_witness subset _ _ ?_ v hv
  · simpa using hnt
  · simp
  · intro x hx
    simp only [decide_eq_true_eq] at hx ⊢
    intro hmem
    exact hx (List.mem_cons_of_mem v hmem)

theorem unTmp_le_of_subset (subset tmp tmp2 : List Int)
    (h : ∀ x ∈ tmp, x ∈ tmp2) : unTmp subset tmp2 ≤ unTmp subset tmp := by
  unfold unTmp
  apply filter_length_le_of_imp
  intro x hx
  simp only [decide_eq_true_eq] at hx ⊢
  intro hmem
  exact hx (h x hmem)

theorem unTmp_nil (subset : List Int) : unTmp subset [] = subset.length := by
  unfold unTmp
  simp

theorem has_edge_of_mem_lookup {g : Graph} {v w : Int}
    (h : w ∈ (List.lookup v g).getD []) : has_edge g v w = true := by
  unfold has_edge
  cases hl : List.lookup v g with
  | none =>
    rw [hl] at h
    simp at h
  | some ds =>
    rw [hl] at h
    simp only [Option.getD_some] at h
    simpa using h

theorem mem_lookup_of_has_edge {g : Graph} {v w : Int}
    (h : has_edge g v w = true) : w ∈ (List.lookup v g).getD [] := by
  unfold has_edge at h
  cases hl : List.lookup v g with
  | none =>
    rw [hl] at h
    simp at h
  | some ds =>
    rw [hl] at h
    simp only [Option.getD_some]
    simpa using h

theorem visit_and_visitList_fact (g : Graph) (subset : List Int) :
    ∀ fuel, VisitFact g subset fuel ∧ ListFact g subset fuel := by
  intro fuel
  induction fuel with
  | zero =>
    constructor
    · intro r m t v _ _ _ hf
      exact absurd hf (by omega)
    · intro r m t ws _ _ _ hf
      exact absurd hf (by omega)
  | succ f ih =>
    have hvisit : VisitFact g subset (f + 1) := by
      intro r m t v hInv hvs hreach hfuel
      rw [visit]
      by_cases hm : v ∈ m
      · rw [if_pos hm]
        constructor
        · intro h
          exact Option.noConfusion h
        · intro st hst
          have hst2 : (r, m, t) = st := Option.some.inj hst
          subst hst2
          refine ⟨⟨hInv, fun x hx => hx, ⟨[], by simp⟩, fun x hx => Or.inl hx,
            fun x hx => hx, fun x hx hnx => hnx⟩, hm⟩
      · rw [if_neg hm]
        by_cases ht : v ∈ t
        · rw [if_pos ht]
          constructor
          · intro _
            exact ⟨v, hreach v ht hm⟩
          · intro st hst
            exact Option.noConfusion hst
        · rw [if_neg ht]
          have hedge : ∀ w ∈ ((List.lookup v g).getD []).filter
              (fun w => w ∈ subset), subE g subset v w := by
            intro w hw
            have hw2 := List.mem_filter.mp hw
            exact ⟨has_edge_of_mem_lookup hw2.1, hvs, by simpa using hw2.2⟩
          have hsuccs : ∀ w ∈ ((List.lookup v g).getD []).filter
              (fun w => w ∈ subset), w ∈ subset := by
            intro w hw
            exact (hedge w hw).2.2
          have hreach2 : ∀ u ∈ v :: t, u ∉ m →
              ∀ w ∈ ((List.lookup v g).getD []).filter
                (fun w => w ∈ subset),
              Relation.TransGen (subE g subset) u w := by
            intro u hu hum w hw
            rcases List.mem_cons.mp hu with h | h
            · subst h
              exact Relation.TransGen.single (hedge w hw)
            · exact Relation.TransGen.tail (hreach u h hum) (hedge w hw)
          have hfuel2 : unTmp subset (v :: t) + 1 ≤ f := by
            have := unTmp_cons_lt subset t v hvs ht
            omega
          have hlist := ih.2 r m (v :: t)
            (((List.lookup v g).getD []).filter fun w => w ∈ subset)
            hInv hsuccs hreach2 hfuel2
          cases hcall : visitList g subset f r m (v :: t)
              (((List.lookup v g).getD []).filter fun w => w ∈ subset) with
          | none =>
            constructor
            · intro _
              exact hlist.1 hcall
            · intro st hst
              exact Option.noConfusion hst
          | some st1 =>
            obtain ⟨r2, m2, t2⟩ := st1
            have hpost := hlist.2 (r2, m2, t2) hcall
            obtain ⟨⟨hInv2, hmono2, ⟨rs2, hrs2⟩, htnew2, htgrow2, hP42⟩, hns⟩ :=
              hpost
            dsimp only at hInv2 hmono2 hrs2 htnew2 htgrow2 hP42 hns
            constructor
            · intro h
              exact Option.noConfusion h
            · intro st hst
              have hst2 : (r2 ++ [v], v :: m2, t2) = st := Option.some.inj hst
              subst hst2
              have hvm2 : v ∉ m2 := hP42 v (List.mem_cons_self v t) hm
              have hiff2 := hInv2.2.2.1
              have hvr2 : v ∉ r2 := fun hx => hvm2 ((hiff2 v).mp hx)
              have hnsm2 : ∀ w, subE g subset v w → w ∈ m2 := by
                intro w hsw
                apply hns w
                apply List.mem_filter.mpr
                exact ⟨mem_lookup_of_has_edge hsw.1, by simpa using hsw.2.2⟩
              have hInv3 : Inv g subset (r2 ++ [v]) (v :: m2) := by
                obtain ⟨hmN, hrN, hiff, hmsub, hclo, hord⟩ := hInv2
                refine ⟨List.nodup_cons.mpr ⟨hvm2, hmN⟩, ?_, ?_, ?_, ?_, ?_⟩
                · rw [List.nodup_append]
                  refine ⟨hrN, List.nodup_singleton v, ?_⟩
                  intro x hx hxv
                  have hxv2 : x = v := by simpa using hxv
                  subst hxv2
                  exact hvr2 hx
                · intro x
                  simp only [List.mem_append, List.mem_singleton,
                    List.mem_cons]
                  rw [hiff x]
                  tauto
                · intro u hu
                  rcases List.mem_cons.mp hu with h | h
                  · subst h
                    exact hvs
                  · exact hmsub u h
                · intro u hu w hsw
                  rcases List.mem_cons.mp hu with h | h
                  · rw [h] at hsw
                    exact List.mem_cons_of_mem v (hnsm2 w hsw)
                  · exact List.mem_cons_of_mem v (hclo u h w hsw)
                · intro i hi w hsw
                  have hlen : (r2 ++ [v]).length = r2.length + 1 := by simp
                  by_cases hlt : i < r2.length
                  · have hget : (r2 ++ [v]).get ⟨i, hi⟩ = r2.get ⟨i, hlt⟩ := by
                      simp [List.getElem_append_left hlt]
                    rw [hget] at hsw
                    have hw := hord i hlt w hsw
                    rw [List.take_append_of_le_length (by omega)]
                    exact hw
                  · have hieq : i = r2.length := by
                      rw [hlen] at hi
                      omega
                    subst hieq
                    have hget : (r2 ++ [v]).get ⟨r2.length, hi⟩ = v := by simp
                    rw [hget] at hsw
                    rw [List.take_append_of_le_length (le_refl _),
                      List.take_length]
                    exact (hiff w).mpr (hnsm2 w hsw)
              refine ⟨⟨hInv3, ?_, ?_, ?_, ?_, ?_⟩, List.mem_cons_self v m2⟩
              · intro x hx
                exact List.mem_cons_of_mem v (hmono2 x hx)
              · exact ⟨rs2 ++ [v], by rw [hrs2, List.append_assoc]⟩
              · intro x hx
                rcases htnew2 x hx with h | h
                · rcases List.mem_cons.mp h with h2 | h2
                  · subst h2
                    exact Or.inr (List.mem_cons_self x m2)
                  · exact Or.inl h2
                · exact Or.inr (List.mem_cons_of_mem v h)
              · intro x hx
                exact htgrow2 x (List.mem_cons_of_mem v hx)
              · intro x hx hxm hxc
                rcases List.mem_cons.mp hxc with h | h
                · exact ht (h ▸ hx)
                · exact hP42 x (List.mem_cons_of_mem v hx) hxm h
    have hlistf : ListFact g subset (f + 1) := by
      intro r m t ws
      induction ws generalizing r m t with
      | nil =>
        intro hInv _ _ _
        rw [visitList]
        constructor
        · intro h
          exact Option.noConfusion h
        · intro st hst
          have hst2 : (r, m, t) = st := Option.some.inj hst
          subst hst2
          refine ⟨⟨hInv, fun x hx => hx, ⟨[], by simp⟩, fun x hx => Or.inl hx,
            fun x hx => hx, fun x hx hnx => hnx⟩, ?_⟩
          intro w hw
          exact absurd hw (List.not_mem_nil w)
      | cons w ws ihw =>
        intro hInv hws hreach hfuel
        rw [visitList]
        have hwsub : w ∈ subset := hws w (List.mem_cons_self w ws)
        have hvreach : TmpReach g subset m t w := by
          intro u hu hum
          exact hreach u hu hum w (List.mem_cons_self w ws)
        have hv := hvisit r m t w hInv hwsub hvreach hfuel
        cases hcall : visit g subset (f + 1) r m t w with
        | none =>
          constructor
          · intro _
            exact hv.1 hcall
          · intro st hst
            exact Option.noConfusion hst
        | some st1 =>
          obtain ⟨r1, m1, t1⟩ := st1
          have hpost1 := hv.2 (r1, m1, t1) hcall
          obtain ⟨⟨hInv1, hmono1, ⟨rs1, hrs1⟩, htnew1, htgrow1, hP41⟩, hwm1⟩ :=
            hpost1
          dsimp only at hInv1 hmono1 hrs1 htnew1 htgrow1 hP41 hwm1
          have hws2 : ∀ w2 ∈ ws, w2 ∈ subset := by
            intro w2 hw2
            exact hws w2 (List.mem_cons_of_mem w hw2)
          have hreach2 : ∀ u ∈ t1, u ∉ m1 → ∀ w2 ∈ ws,
              Relation.TransGen (subE g subset) u w2 := by
            intro u hu hum w2 hw2
            rcases htnew1 u hu with h | h
            · exact hreach u h (fun hm3 => hum (hmono1 u hm3)) w2
                (List.mem_cons_of_mem w hw2)
            · exact absurd h hum
          have hfuel2 : unTmp subset t1 + 1 ≤ f + 1 := by
            have := unTmp_le_of_subset subset t t1 htgrow1
            omega
          have htail := ihw r1 m1 t1 hInv1 hws2 hreach2 hfuel2
          constructor
          · intro h
            exact htail.1 h
          · intro st hst
            have hpost2 := htail.2 st hst
            obtain ⟨⟨hInv2, hmono2, ⟨rs2, hrs2⟩, htnew2, htgrow2, hP42⟩,
              hwsm2⟩ := hpost2
            refine ⟨⟨hInv2, ?_, ?_, ?_, ?_, ?_⟩, ?_⟩
            · intro x hx
              exact hmono2 x (hmono1 x hx)
            · exact ⟨rs1 ++ rs2, by rw [hrs2, hrs1, List.append_assoc]⟩
            · intro x hx
              rcases htnew2 x hx with h | h
              · rcases htnew1 x h with h2 | h2
                · exact Or.inl h2
                · exact Or.inr (hmono2 x h2)
              · exact Or.inr h
            · intro x hx
              exact htgrow2 x (htgrow1 x hx)
            · intro x hx hxm
              exact hP42 x (htgrow1 x hx) (hP41 x hx hxm)
            · intro w2 hw2
              rcases List.mem_cons.mp hw2 with h | h
              · subst h
                exact hmono2 w2 hwm1
              · exact hwsm2 w2 h
    exact ⟨hvisit, hlistf⟩

theorem inv_init (g : Graph) (subset : List Int) : Inv g subset [] [] := by
  refine ⟨List.nodup_nil, List.nodup_nil, by simp, by simp, by simp, ?_⟩
  intro i hi w hsw
  simp at hi

theorem sortLoop_spec (g : Graph) (subset : List Int) :
    ∀ fuel result marked,
      Inv g subset result marked →
      unTmp subset marked + 1 ≤ fuel →
      (sortLoop g subset fuel result marked = none → Cyclic g subset) ∧
      ∀ st, sortLoop g subset fuel result marked = some st →
        Inv g subset st.1 st.2 ∧ ∀ v ∈ subset, v ∈ st.2 := by
  intro fuel
  induction fuel with
  | zero =>
    intro r m _ hf
    exact absurd hf (by omega)
  | succ f ih =>
    intro r m hInv hfuel
    cases hfind : subset.find? (fun v => decide (¬ v ∈ m)) with
    | none =>
      have heq : sortLoop g subset (f + 1) r m = some (r, m) := by
        rw [sortLoop, hfind]
      rw [heq]
      constructor
      · intro h
        exact Option.noConfusion h
      · intro st hst
        have hst2 : (r, m) = st := Option.some.inj hst
        subst hst2
        refine ⟨hInv, ?_⟩
        intro v hv
        have := List.find?_eq_none.mp hfind v hv
        simpa using this
    | some v =>
      have heq : sortLoop g subset (f + 1) r m =
          (match visit g subset (subset.length + 1) r m [] v with
          | none => none
          | some (result2, marked2, _) =>
            sortLoop g subset f result2 marked2) := by
        rw [sortLoop, hfind]
      rw [heq]
      have hvsub : v ∈ subset := List.mem_of_find?_eq_some hfind
      have hvm : ¬ v ∈ m := by
        have := List.find?_some hfind
        simpa using this
      have hreach0 : TmpReach g subset m [] v := by
        intro u hu
        exact absurd hu (List.not_mem_nil u)
      have hfuel0 : unTmp subset [] + 1 ≤ subset.length + 1 := by
        rw [unTmp_nil]
      have hvf := (visit_and_visitList_fact g subset (subset.length + 1)).1
        r m [] v hInv hvsub hreach0 hfuel0
      cases hcall : visit g subset (subset.length + 1) r m [] v with
      | none =>
        constructor
        · intro _
          exact hvf.1 hcall
        · intro st hst
          exact Option.noConfusion hst
      | some st1 =>
        obtain ⟨r2, m2, t2⟩ := st1
        have hpost := hvf.2 (r2, m2, t2) hcall
        obtain ⟨⟨hInv2, hmono2, _hrs, _htn, _htg, _hP4⟩, hvm2⟩ := hpost
        dsimp only at hInv2 hmono2 hvm2
        have hlt : unTmp subset m2 < unTmp subset m := by
          unfold unTmp
          apply filter_length_lt_of_witness subset _ _ ?_ v hvsub
          · simpa using hvm
          · simpa using hvm2
          · intro x hx
            simp only [decide_eq_true_eq] at hx ⊢
            intro hmem
            exact hx (hmono2 x hmem)
        have hfuel2 : unTmp subset m2 + 1 ≤ f := by omega
        exact ih r2 m2 hInv2 hfuel2

theorem topologically_sort_cases (g : Graph) (subset : List Int) :
    (topologically_sort ⟨g, subset⟩ = none → Cyclic g subset) ∧
    ∀ t, topologically_sort ⟨g, subset⟩ = some t →
      ∃ r m, t = r.reverse ∧ Inv g subset r m ∧ ∀ v ∈ subset, v ∈ m := by
  have hfuel : unTmp subset [] + 1 ≤ subset.length + 1 := by rw [unTmp_nil]
  have hs := sortLoop_spec g subset (subset.length + 1) [] []
    (inv_init g subset) hfuel
  unfold topologically_sort
  cases hcall : sortLoop g subset (subset.length + 1) [] [] with
  | none =>
    constructor
    · intro _
      exact hs.1 hcall
    · intro t ht
      simp at ht
  | some st =>
    obtain ⟨r, m⟩ := st
    have hpost := hs.2 (r, m) hcall
    constructor
    · intro h
      simp at h
    · intro t ht
      simp only [Option.map_some'] at ht
      have ht2 := Option.some.inj ht
      exact ⟨r, m, ht2.symm, hpost.1, hpost.2⟩

theorem indexOf_lt_of_mem_take {r : List Int} {w : Int} :
    ∀ {i : Nat}, w ∈ r.take i → r.indexOf w < i := by
  induction r with
  | nil =>
    intro i h
    simp at h
  | cons x xs ih =>
    intro i h
    cases i with
    | zero => simp at h
    | succ j =>
      rw [List.take_succ_cons] at h
      by_cases hx : w = x
      · subst hx
        simp [List.indexOf_cons_self]
      · rcases List.mem_cons.mp h with h1 | h1
        · exact absurd h1 hx
        · rw [List.indexOf_cons_ne _ (Ne.symm hx)]
          have := ih h1
          omega

theorem not_cyclic_of_inv (g : Graph) (subset : List Int) (r m : List Int)
    (hInv : Inv g subset r m) (hcov : ∀ v ∈ subset, v ∈ m) :
    ¬ Cyclic g subset := by
  obtain ⟨hmN, hrN, hiff, hmsub, hclo, hord⟩ := hInv
  rintro ⟨v, hv⟩
  have hstart : ∀ x y, Relation.TransGen (subE g subset) x y →
      x ∈ subset := by
    intro x y h
    induction h with
    | single e => exact e.2.1
    | tail _ _ ihh => exact ihh
  have hvr : v ∈ r := (hiff v).mpr (hcov v (hstart v v hv))
  have hstep : ∀ x y, subE g subset x y → x ∈ r →
      y ∈ r ∧ r.indexOf y < r.indexOf x := by
    intro x y he hx
    have hix : r.indexOf x < r.length := List.indexOf_lt_length.mpr hx
    have hgx : r.get ⟨r.indexOf x, hix⟩ = x := List.indexOf_get hix
    have hy := hord (r.indexOf x) hix y (by rw [hgx]; exact he)
    exact ⟨List.mem_of_mem_take hy, indexOf_lt_of_mem_take hy⟩
  have hmeas : ∀ x y, Relation.TransGen (subE g subset) x y → x ∈ r →
      y ∈ r ∧ r.indexOf y < r.indexOf x := by
    intro x y h
    induction h with
    | single e => exact fun hx => hstep _ _ e hx
    | tail h2 e ihh =>
      intro hx
      obtain ⟨hy, hlt⟩ := ihh hx
      obtain ⟨hz, hlt2⟩ := hstep _ _ e hy
      exact ⟨hz, lt_trans hlt2 hlt⟩
  obtain ⟨_, hlt⟩ := hmeas v v hv hvr
  omega

theorem get_lt_of_mem_take (r : List Int) (hnd : r.Nodup) (b a : Nat)
    (hb : b < r.length) (h : r.get ⟨b, hb⟩ ∈ r.take a) : b < a := by
  rw [List.mem_take_iff_getElem] at h
  obtain ⟨i, hi, hx⟩ := h
  have hi2 : i < r.length := by omega
  have heq : r.get ⟨i, hi2⟩ = r.get ⟨b, hb⟩ := by simpa using hx
  have hib : (⟨i, hi2⟩ : Fin r.length) = ⟨b, hb⟩ :=
    (List.Nodup.get_inj_iff hnd).mp heq
  have hib2 : i = b := by simpa using congrArg Fin.val hib
  omega

theorem ham_eq (sg : SubgraphView) (t0 : List Int)
    (h : topologically_sort sg = some t0) :
    hamiltonian_path sg =
      if (t0.zip (t0.drop 1)).all (fun pr => has_edge sg.graph pr.1 pr.2)
      then some t0 else none := by
  unfold hamiltonian_path
  rw [h]
  rfl

theorem ham_none (sg : SubgraphView) (h : topologically_sort sg = none) :
    hamiltonian_path sg = none := by
  unfold hamiltonian_path
  rw [h]
  rfl

theorem foldl_sumStep_none (rules : List (Int × Int)) (rg : Graph) :
    ∀ l : List (List Int), l.foldl (sumStep rules rg) none = none := by
  intro l
  induction l with
  | nil => rfl
  | cons x xs ihl =>
    rw [List.foldl_cons]
    have h : sumStep rules rg none x = none := rfl
    rw [h, ihl]

theorem foldl_sumStep_bad (rules : List (Int × Int)) (rg : Graph)
    (u : List Int) (hval : is_valid_update rules u = false)
    (hfix : fix_update rg u = none) :
    ∀ (l : List (List Int)) (acc : Option Int), u ∈ l →
      l.foldl (sumStep rules rg) acc = none := by
  intro l
  induction l with
  | nil =>
    intro acc h
    exact absurd h (List.not_mem_nil u)
  | cons x xs ihl =>
    intro acc h
    rw [List.foldl_cons]
    rcases List.mem_cons.mp h with h1 | h1
    · subst h1
      cases acc with
      | none => exact foldl_sumStep_none rules rg xs
      | some s =>
        have hstep : sumStep rules rg (some s) u = none := by
          show (if is_valid_update rules u = true then some s
            else match fix_update rg u with
              | none => none
              | some fixed_update =>
                some (s + middle_page_number fixed_update)) = none
          rw [hval]
          simp only [Bool.false_eq_true, if_false]
          rw [hfix]
        rw [hstep]
        exact foldl_sumStep_none rules rg xs
    · exact ihl (sumStep rules rg acc x) h1

/-- C6: for every rules graph and duplicate-free vertex subset,
`hamiltonian_path` returns `some t` iff the restricted subgraph is acyclic
and the topological order `t` it computes has a direct edge between every
consecutive pair; a successful `t` enumerates the subgraph's vertices exactly
once in an order consistent with every restricted edge; and in
`sum_of_middle_page_numbers_of_fixed_invalid_updates` an invalid update whose
restricted constraint subgraph admits no such path aborts the computation
(the fold yields the panic signal `none`). -/
theorem day5_hamiltonian_path_spec (g : Graph) (subset : List Int)
    (hS : subset.Nodup) : HamSpec g subset := by
  obtain ⟨hnone, hsome⟩ := topologically_sort_cases g subset
  have hacyc : ∀ t, topologically_sort ⟨g, subset⟩ = some t →
      ¬ Cyclic g subset := by
    intro t ht
    obtain ⟨r, m, hrev, hInv, hcov⟩ := hsome t ht
    exact not_cyclic_of_inv g subset r m hInv hcov
  have hsort_of_ham : ∀ t, hamiltonian_path ⟨g, subset⟩ = some t →
      topologically_sort ⟨g, subset⟩ = some t ∧
        (t.zip (t.drop 1)).all (fun pr => has_edge g pr.1 pr.2) = true := by
    intro t hham
    cases hsrt : topologically_sort (⟨g, subset⟩ : SubgraphView) with
    | none =>
      rw [ham_none _ hsrt] at hham
      exact Option.noConfusion hham
    | some t0 =>
      rw [ham_eq _ t0 hsrt] at hham
      by_cases hcond : (t0.zip (t0.drop 1)).all
          (fun pr => has_edge g pr.1 pr.2) = true
      · rw [if_pos hcond] at hham
        have ht0 : t0 = t := Option.some.inj hham
        subst ht0
        exact ⟨rfl, hcond⟩
      · rw [if_neg hcond] at hham
        exact Option.noConfusion hham
  refine ⟨?_, ?_, ?_, ?_⟩
  · intro t
    constructor
    · intro hham
      obtain ⟨hsrt, hcond⟩ := hsort_of_ham t hham
      exact ⟨hacyc t hsrt, hsrt, hcond⟩
    · rintro ⟨_, hsrt, hcond⟩
      rw [ham_eq _ t hsrt]
      rw [if_pos hcond]
  · constructor
    · rintro ⟨t, ht⟩
      exact hacyc t ht
    · intro hnc
      cases hsrt : topologically_sort (⟨g, subset⟩ : SubgraphView) with
      | none => exact absurd (hnone hsrt) hnc
      | some t => exact ⟨t, rfl⟩
  · intro t hham
    obtain ⟨hsrt, _⟩ := hsort_of_ham t hham
    obtain ⟨r, m, hrev, hInv, hcov⟩ := hsome t hsrt
    obtain ⟨hmN, hrN, hiff, hmsub, hclo, hord⟩ := hInv
    subst hrev
    have htN : r.reverse.Nodup := List.nodup_reverse.mpr hrN
    have hmem : ∀ x, x ∈ r.reverse ↔ x ∈ subset := by
      intro x
      rw [List.mem_reverse]
      constructor
      · intro hx
        exact hmsub x ((hiff x).mp hx)
      · intro hx
        exact (hiff x).mpr (hcov x hx)
    constructor
    · exact (List.perm_ext_iff_of_nodup htN hS).mpr hmem
    · intro i j hi hj hsw
      have hi2 : i < r.length := by simpa using hi
      have hj2 : j < r.length := by simpa using hj
      have hgi : r.reverse.get ⟨i, hi⟩ =
          r.get ⟨r.length - 1 - i, by omega⟩ := by
        simp [List.getElem_reverse]
      have hgj : r.reverse.get ⟨j, hj⟩ =
          r.get ⟨r.length - 1 - j, by omega⟩ := by
        simp [List.getElem_reverse]
      rw [hgi, hgj] at hsw
      have h1 := hord (r.length - 1 - i) (by omega) _ hsw
      have h2 := get_lt_of_mem_take r hrN (r.length - 1 - j)
        (r.length - 1 - i) (by omega) h1
      omega
  · intro input u hu hval hfix
    unfold sum_of_middle_page_numbers_of_fixed_invalid_updates
    exact foldl_sumStep_bad input.page_ordering_rules
      (with_edges input.page_ordering_rules) u hval hfix
      input.updates (some 0) hu

/-- Witness for C6 at the rules graph of edges (0,1), (1,2), (0,2) and the
subset [0, 1, 2]. -/
theorem day5_hamiltonian_path_spec_witness :
    ([0, 1, 2] : List Int).Nodup ∧
      HamSpec (with_edges [(0, 1), (1, 2), (0, 2)]) [0, 1, 2] :=
  ⟨by decide, day5_hamiltonian_path_spec (with_edges [(0, 1), (1, 2), (0, 2)])
    [0, 1, 2] (by decide)⟩

end Day5

end Aoc
